import Mathlib

/-!
Verification of the alpha-pulse acquisition and extraction pipeline.

This file gives a shallow embedding, in Lean 4, of the pure logic of the
pipeline's Python source: the classification-code filter of
`grab_recent_filings`, the deduplicating key filter of `DuckDBClient`, the
delete/update write of `publish_parsed_801`, the index-page URL resolver,
the Atom feed parser, the section extractor and its regular-expression
matcher, the exhibit claimed-URL discipline, and the rate limiter.  Text is
modelled as `List Char`; the DuckDB tables as lists of rows; machine
floating point of the rate limiter as exact rationals.  Where the source
delegates to an external library whose behaviour is not part of the
repository (HTML entity unescaping via `html.unescape`, DOM extraction via
BeautifulSoup, datetime validation via pydantic) the embedding takes that
step as an explicit function parameter, so every theorem quantifies over
all behaviours of the external step.
-/

namespace AlphaPulse

/-- Characters of a string literal, the working representation of Python text. -/
def lc (s : String) : List Char := s.data

/-- Python `str.split(',')`: splitting the empty text gives one empty field. -/
def splitComma : List Char → List (List Char)
  | [] => [[]]
  | c :: cs =>
    let r := splitComma cs
    if c = ',' then [] :: r
    else
      match r with
      | [] => [[c]]
      | h :: t => (c :: h) :: t

/-- Python's `\s` character class, restricted to its ASCII members. -/
def pyIsSpace (c : Char) : Bool :=
  c = ' ' || c = '\t' || c = '\n' || c = '\r' || c = '\x0b' || c = '\x0c'

/-- The character class `[A-Za-z0-9]` of the section regular expressions. -/
def isAlnumAscii (c : Char) : Bool := c.isAlpha || c.isDigit

/-- Python `str.lstrip()` on ASCII whitespace. -/
def lstripPy (l : List Char) : List Char := l.dropWhile pyIsSpace

/-- Python `str.rstrip()` on ASCII whitespace. -/
def rstripPy (l : List Char) : List Char := (l.reverse.dropWhile pyIsSpace).reverse

/-- Python `str.strip()` on ASCII whitespace. -/
def stripPy (l : List Char) : List Char := rstripPy (lstripPy l)

/-! ## C4: `DuckDBClient.filter_out_existing_primary_keys`
(`src/alpha_pulse/storage/base_db_client.py`, single-column primary key
branch, the one exercised by the listing table whose key is the listing
URL).  The table is modelled by the list of its stored primary-key values;
the `SELECT pk FROM t WHERE pk IN (...)` query by a filter over the stored
keys; `list(set(keys) - set(existing_keys))` by a deduplicated filter (the
Python result is a set, so only membership is specified). -/

/-- `filter_out_existing_primary_keys` for a single-column primary key:
`stored` is the column of primary keys already persisted, `keys` the
candidate keys. -/
def filter_out_existing_primary_keys (stored keys : List (List Char)) :
    List (List Char) :=
  if keys = [] then []
  else
    let existing_keys := stored.filter (fun r => r ∈ keys)
    (keys.filter (fun k => k ∉ existing_keys)).dedup

/-! ## C2: the classification-code filter of `grab_recent_filings`
(`src/alpha_pulse/clients/edgar/edgar_client.py` line 46 and
`src/alpha_pulse/tools/edgar/edgar_client.py` lines 64-69, identical
predicates).  The code keeps a filing when
`set(filing.item_list.split(',')) - ALLOWED_8K_ITEMS` is non-empty. -/

/-- The allow-list `ALLOWED_8K_ITEMS` of `clients/edgar/utils.py`. -/
def ALLOWED_8K_ITEMS : List (List Char) :=
  [lc "2.02", lc "1.01", lc "5.02", lc "2.01", lc "8.01", lc "1.03",
   lc "3.01", lc "4.02", lc "2.03", lc "5.03", lc "4.01", lc "5.07"]

/-- The fields of a feed entry consulted by the item filter. -/
structure Filing8K where
  cik : List Char
  base_url : List Char
  item_list : List Char
deriving DecidableEq

/-- The codes of `filing.item_list` that are outside the allow-list:
`set(f.item_list.split(',')) - ALLOWED_8K_ITEMS` (the `set` deduplication
cannot change emptiness, which is all the filter consults). -/
def disallowedItems (f : Filing8K) : List (List Char) :=
  (splitComma f.item_list).filter (fun x => x ∉ ALLOWED_8K_ITEMS)

/-- The filter loop of `grab_recent_filings`: a filing is appended to
`new_filings2` exactly when `item_list - ALLOWED_8K_ITEMS` is truthy,
that is, non-empty. -/
def filterFilingsByItems (fs : List Filing8K) : List Filing8K :=
  fs.filter (fun f => disallowedItems f ≠ [])

/-- A concrete filing whose only classification code, 9.99, is outside the
allow-list. -/
def filing999 : Filing8K :=
  { cik := lc "0000000001", base_url := lc "https://www.sec.gov/idx1",
    item_list := lc "9.99" }

/-- A concrete filing whose only classification code, 2.02, is in the
allow-list. -/
def filing202 : Filing8K :=
  { cik := lc "0000000002", base_url := lc "https://www.sec.gov/idx2",
    item_list := lc "2.02" }

/-! ## C1: `publish_parsed_801.insert`
(`src/alpha_pulse/storage/publishers/publish_parsed_801.py`).  The
`analyzed_item801` DuckDB table is a list of rows; the `SELECT`/`DELETE`/
`UPDATE`/append steps are modelled statement for statement.  The
`Analyzed801Text(**record.model_dump())` re-validation is the identity on
an already well-typed row and is not repeated here. -/

/-- One row of the `analyzed_item801` table (`TEXT` columns as text,
`BOOLEAN` as `Bool`; `DATE` and `TIMESTAMP` as their textual value, which
the statements only compare for equality). -/
structure Analyzed801Row where
  category : List Char
  summary_list : List Char
  sentiment : List Char
  price_impact : List Char
  is_event_unexpected : Bool
  cik : List Char
  filing_date : List Char
  item_number : List Char
  base_url : List Char
  ts : List Char
deriving DecidableEq

/-- The key the publisher's statements filter on:
`cik = ? AND filing_date = ? AND item_number = ?`. -/
def key801 (r : Analyzed801Row) : List Char × List Char × List Char :=
  (r.cik, r.filing_date, r.item_number)

/-- `publish_parsed_801.insert`: `existing_cik` is the fetched row of the
`SELECT`; when truthy the `DELETE` removes every row matching the key and
the subsequent `UPDATE` rewrites the payload columns of every row matching
the key (none remain); otherwise the record is appended. -/
def publish_parsed_801_insert (table : List Analyzed801Row)
    (record : Analyzed801Row) : List Analyzed801Row :=
  let existing_cik := table.filter (fun r => key801 r = key801 record) ≠ []
  let table1 :=
    if existing_cik then table.filter (fun r => ¬ key801 r = key801 record)
    else table
  if existing_cik then
    table1.map (fun r =>
      if key801 r = key801 record then
        { r with category := record.category,
                 summary_list := record.summary_list,
                 sentiment := record.sentiment,
                 price_impact := record.price_impact,
                 is_event_unexpected := record.is_event_unexpected,
                 ts := record.ts }
      else r)
  else table1 ++ [record]

/-- A first concrete `analyzed_item801` record. -/
def row801first : Analyzed801Row :=
  { category := lc "earnings", summary_list := lc "first summary",
    sentiment := lc "positive", price_impact := lc "low",
    is_event_unexpected := false, cik := lc "0000000001",
    filing_date := lc "2024-05-01", item_number := lc "8.01",
    base_url := lc "https://www.sec.gov/idx1", ts := lc "2024-05-01T10:00:00-04:00" }

/-- A second record with the same primary key and a different payload. -/
def row801second : Analyzed801Row :=
  { row801first with category := lc "litigation",
                     summary_list := lc "second summary",
                     sentiment := lc "negative" }

/-! ## Text scanning helpers shared by the regular-expression embeddings -/

/-- Consume an exact (case-sensitive) literal from the front of the text,
returning the remainder. -/
def dropLit : List Char → List Char → Option (List Char)
  | [], l => some l
  | _ :: _, [] => none
  | p :: ps, c :: cs => if c = p then dropLit ps cs else none

/-- Consume a literal case-insensitively (ASCII lowering, as `str.lower`
and `re.IGNORECASE` behave on the tags involved), returning the consumed
original characters and the remainder. -/
def takeCI : List Char → List Char → Option (List Char × List Char)
  | [], l => some ([], l)
  | _ :: _, [] => none
  | p :: ps, c :: cs =>
    if c.toLower = p.toLower then
      (takeCI ps cs).map (fun pr => (c :: pr.1, pr.2))
    else none

theorem dropLit_length {pat l r : List Char} (h : dropLit pat l = some r) :
    r.length + pat.length = l.length := by
  induction pat generalizing l with
  | nil => cases h; simp
  | cons p ps ih =>
    cases l with
    | nil => simp [dropLit] at h
    | cons c cs =>
      by_cases hc : c = p
      · simp only [dropLit, if_pos hc] at h
        have := ih h
        simp [List.length_cons]; omega
      · simp [dropLit, hc] at h

theorem takeCI_length {pat l : List Char} {m r : List Char}
    (h : takeCI pat l = some (m, r)) : r.length + pat.length = l.length := by
  induction pat generalizing l m with
  | nil =>
    simp only [takeCI, Option.some.injEq, Prod.mk.injEq] at h
    simp [← h.2]
  | cons p ps ih =>
    cases l with
    | nil => simp [takeCI] at h
    | cons c cs =>
      by_cases hc : c.toLower = p.toLower
      · rw [takeCI, if_pos hc, Option.map_eq_some'] at h
        obtain ⟨⟨m', r'⟩, hm, he⟩ := h
        have he' : c :: m' = m ∧ r' = r := by simpa using he
        obtain ⟨he1, he2⟩ := he'
        subst he1; subst he2
        have hlen := ih hm
        simp only [List.length_cons]; omega
      · simp [takeCI, hc] at h

theorem takeCI_rest_lt {pat l m r : List Char} (hp : pat ≠ [])
    (h : takeCI pat l = some (m, r)) : r.length < l.length := by
  have := takeCI_length h
  have : 0 < pat.length := List.length_pos_of_ne_nil hp
  omega

/-- The text before and after the first case-insensitive occurrence of a
literal (`re.search` of an alternation-free, class-free pattern). -/
def splitFirstCI (pat : List Char) : List Char → Option (List Char × List Char)
  | [] => (takeCI pat []).map (fun pr => ([], pr.2))
  | c :: cs =>
    match takeCI pat (c :: cs) with
    | some (_, rest) => some ([], rest)
    | none => (splitFirstCI pat cs).map (fun pr => (c :: pr.1, pr.2))

theorem splitFirstCI_rest_lt {pat l a b : List Char} (hp : pat ≠ [])
    (h : splitFirstCI pat l = some (a, b)) : b.length < l.length := by
  induction l generalizing a with
  | nil =>
    rw [splitFirstCI, Option.map_eq_some'] at h
    obtain ⟨⟨m, r⟩, hm, _⟩ := h
    cases pat with
    | nil => exact absurd rfl hp
    | cons p ps => simp [takeCI] at hm
  | cons c cs ih =>
    rw [splitFirstCI] at h
    cases htc : takeCI pat (c :: cs) with
    | some pr =>
      rw [htc] at h
      obtain ⟨pm, pr'⟩ := pr
      simp only [Option.some.injEq, Prod.mk.injEq] at h
      rw [← h.2]
      exact takeCI_rest_lt hp htc
    | none =>
      rw [htc, Option.map_eq_some'] at h
      obtain ⟨⟨a', b'⟩, hm, he⟩ := h
      have he' : c :: a' = a ∧ b' = b := by simpa using he
      obtain ⟨he1, he2⟩ := he'
      subst he1; subst he2
      have hlen := ih hm
      simp only [List.length_cons]; omega

/-! ## `clean_text` (`clients/edgar/utils.py`): entity unescape (external,
a parameter), the literal replacement table, whitespace collapse, strip. -/

/-- The replacement table of `clean_text`, in source order: Unicode
punctuation and whitespace variants and a few numeric entities, each mapped
to its ASCII stand-in. -/
def pyReplacements : List (List Char × List Char) :=
  [(['\u00A0'], [' ']), (['\u2001'], [' ']), (['\u2002'], [' ']),
   (['\u2003'], [' ']), (['\u2009'], [' ']), (['\u2018'], ['\u0027']),
   (['\u2019'], ['\u0027']), (['\u201C'], ['"']), (['\u201D'], ['"']),
   (['\u2014'], ['-']), (['\u2013'], ['-']), (['\u2026'], ['.', '.', '.']),
   (['\u2022'], ['-']), (['\u00B7'], ['-']),
   (lc "&#8211;", ['-']), (lc "&#8217;", ['\u0027']), (lc "&#8220;", ['"']),
   (lc "&#8221;", ['"']), (lc "&#160;", [' ']), (lc "&#8201;", [' ']),
   (lc "&#8194;", [' ']), (lc "&#8195;", [' ']), (lc "&#8722;", ['-'])]

/-- Scanning body of `replaceAll`.  The fuel argument only bounds the
recursion depth: every step consumes at least one character, so fuel equal
to the text length can never run out (scanning functions in this file use
this fuel pattern so that they reduce inside the kernel). -/
def replaceAllGo (pat rep : List Char) : Nat → List Char → List Char
  | _, [] => []
  | 0, l => l
  | fuel + 1, c :: cs =>
    match dropLit pat (c :: cs) with
    | some rest => rep ++ replaceAllGo pat rep fuel rest
    | none => c :: replaceAllGo pat rep fuel cs

/-- Python `str.replace(pat, rep)` for a non-empty pattern: every
non-overlapping occurrence, scanning left to right. -/
def replaceAll (pat rep : List Char) (l : List Char) : List Char :=
  if pat = [] then l else replaceAllGo pat rep l.length l

theorem dropWhile_length_le {α : Type} (p : α → Bool) (l : List α) :
    (l.dropWhile p).length ≤ l.length := by
  induction l with
  | nil => simp [List.dropWhile]
  | cons c cs ih =>
    by_cases h : p c = true <;> simp [List.dropWhile, h] <;> omega

/-- Scanning body of `collapseWS` (fuel as in `replaceAllGo`). -/
def collapseWSGo : Nat → List Char → List Char
  | _, [] => []
  | 0, l => l
  | fuel + 1, c :: cs =>
    if pyIsSpace c then ' ' :: collapseWSGo fuel (cs.dropWhile pyIsSpace)
    else c :: collapseWSGo fuel cs

/-- `re.sub(r'\s+', ' ', text)`: each maximal whitespace run becomes one
space. -/
def collapseWS (l : List Char) : List Char := collapseWSGo l.length l

/-- Run the whole replacement table of `clean_text`, in order. -/
def applyReplacements (l : List Char) : List Char :=
  pyReplacements.foldl (fun acc pr => replaceAll pr.1 pr.2 acc) l

/-- `clean_text(text)` of `clients/edgar/utils.py`: `html.unescape` (the
external `unesc` parameter), the replacement table, whitespace collapse, and
a final strip. -/
def clean_text (unesc : List Char → List Char) (text : List Char) : List Char :=
  stripPy (collapseWS (applyReplacements (unesc text)))

/-! ## C10: `parse_document_string` (`clients/edgar/utils.py`).
`re.findall(r'<DOCUMENT>(.*?)</DOCUMENT>', s, DOTALL | IGNORECASE)` is the
scan `docBlocks`; each block's `<TEXT>` tail is cleaned through
BeautifulSoup (the external `bodyText` parameter) and `html.unescape`
(`unesc`); blocks without `<TEXT>` make the final `'\n'.join` raise a
`TypeError`, modelled as `Except.error`.  The `TYPE`/`SEQUENCE`/`FILENAME`/
`DESCRIPTION` metadata reads of the source are dropped here: their results
are stored in `doc_info` but never reach the returned value. -/

/-- Scanning body of `docBlocks` (fuel as in `replaceAllGo`). -/
def docBlocksGo : Nat → List Char → List (List Char)
  | 0, _ => []
  | fuel + 1, l =>
    match splitFirstCI (lc "<DOCUMENT>") l with
    | none => []
    | some (_, rest) =>
      match splitFirstCI (lc "</DOCUMENT>") rest with
      | none => []
      | some (inner, rest2) => inner :: docBlocksGo fuel rest2

/-- The bodies of the `<DOCUMENT>...</DOCUMENT>` envelope blocks, in text
order: the lazy group takes everything up to the earliest close tag, and
scanning resumes after it. -/
def docBlocks (l : List Char) : List (List Char) := docBlocksGo (l.length + 1) l

/-- The input holds a (case-insensitive) `<DOCUMENT>` open tag with a
`</DOCUMENT>` close tag somewhere after it — exactly when the envelope
regular expression has a match. -/
def hasEnvelope (l : List Char) : Bool :=
  match splitFirstCI (lc "<DOCUMENT>") l with
  | none => false
  | some (_, rest) => (splitFirstCI (lc "</DOCUMENT>") rest).isSome

/-- One block's text: the tail after the first `<TEXT>` tag is stripped,
handed to BeautifulSoup (`bodyText`, external) and unescaped (`unesc`,
external); `none` models Python's `doc_info['text'] = None`. -/
def blockText (unesc bodyText : List Char → List Char) (block : List Char) :
    Option (List Char) :=
  match splitFirstCI (lc "<TEXT>") block with
  | none => none
  | some (_, rest) => some (unesc (bodyText (stripPy rest)))

/-- Python `'\n'.join`. -/
def joinNL : List (List Char) → List Char
  | [] => []
  | [x] => x
  | x :: y :: t => x ++ '\n' :: joinNL (y :: t)

/-- `parse_document_string`: gather the blocks' texts (a block without
`<TEXT>` makes the join raise, modelled as `Except.error`), join them with
newlines, `clean_text` the result and strip it. -/
def parse_document_string (unesc bodyText : List Char → List Char)
    (doc_string : List Char) : Except Unit (List Char) :=
  match (docBlocks doc_string).mapM (blockText unesc bodyText) with
  | none => .error ()
  | some texts => .ok (stripPy (clean_text unesc (joinNL texts)))

theorem docBlocks_eq_nil_of_no_envelope {l : List Char}
    (h : hasEnvelope l = false) : docBlocks l = [] := by
  unfold docBlocks docBlocksGo
  unfold hasEnvelope at h
  cases h1 : splitFirstCI (lc "<DOCUMENT>") l with
  | none => simp [h1]
  | some pr =>
    obtain ⟨a, rest⟩ := pr
    rw [h1] at h
    simp only at h
    cases h2 : splitFirstCI (lc "</DOCUMENT>") rest with
    | none => simp [h1, h2]
    | some pr2 => rw [h2] at h; simp at h

theorem replaceAll_nil (pat rep : List Char) : replaceAll pat rep [] = [] := by
  unfold replaceAll replaceAllGo
  split <;> rfl

theorem applyReplacements_nil : applyReplacements [] = [] := by
  unfold applyReplacements pyReplacements
  simp [replaceAll_nil]

theorem clean_text_nil {unesc : List Char → List Char} (hu : unesc [] = []) :
    clean_text unesc [] = [] := by
  unfold clean_text
  rw [hu, applyReplacements_nil]
  rfl

/-! ## C5: `extract_8k_url_from_base_url` (`clients/edgar/utils.py`, the
later of the two identical definitions, lines 148-185).  BeautifulSoup's
row traversal is modelled by the list of table rows, each row the list of
its `td` cells; a cell carries its `get_text(strip=True)` text (strip
applied here) and the `href` of its first anchor, if any.  The raising
`ValueError` is `Except.error`. -/

/-- Python `pat in s` for text: some position starts the pattern. -/
def hasSub (pat : List Char) : List Char → Bool
  | [] => (dropLit pat []).isSome
  | c :: cs => (dropLit pat (c :: cs)).isSome || hasSub pat cs

/-- Python `str.lower()` on ASCII letters. -/
def toLowerList (l : List Char) : List Char := l.map Char.toLower

/-- One `td` cell of an index-page table row. -/
structure HtmlCell where
  text : List Char
  href : Option (List Char)
deriving DecidableEq

/-- `SEC_BASE_URL` of `clients/edgar/utils.py`. -/
def SEC_BASE_URL : List Char := lc "https://www.sec.gov"

/-- What the loop body reads off a row, when the row is considered at all:
rows with fewer than four cells, or whose third cell has no hyperlink, are
skipped.  Returns the lowered type text of the fourth cell and the `href`
of the third cell with every `ix?doc=` occurrence removed. -/
def rowInfo (row : List HtmlCell) : Option (List Char × List Char) :=
  if row.length < 4 then none
  else
    match row.get? 3, row.get? 2 with
    | some typeCell, some docCell =>
      docCell.href.map (fun h =>
        (toLowerList (stripPy typeCell.text), replaceAll (lc "ix?doc=") [] h))
    | _, _ => none

/-- One iteration of the row loop: state is `(url_8k, urls_ex99)`. -/
def extractRowStep (st : List Char × List (List Char)) (row : List HtmlCell) :
    List Char × List (List Char) :=
  match rowInfo row with
  | none => st
  | some (file_type, href) =>
    if hasSub (lc "8-k") file_type && st.1.isEmpty then
      (SEC_BASE_URL ++ href, st.2)
    else if hasSub (lc "ex-99") file_type then
      (st.1, st.2 ++ [SEC_BASE_URL ++ href])
    else st

/-- `extract_8k_url_from_base_url`: run the row loop and fail when no
primary document was found (the supplemental URLs are kept as the list the
source joins with commas on return). -/
def extract_8k_url_from_base_url (rows : List (List HtmlCell)) :
    Except Unit (List Char × List (List Char)) :=
  let st := rows.foldl extractRowStep ([], [])
  if st.1.isEmpty then .error () else .ok st

/-- Specification-side reading of the amended claim: the primary document
URL comes from the first considered row whose type text contains `8-k`. -/
def primary8KUrl : List (List HtmlCell) → Option (List Char)
  | [] => none
  | row :: rest =>
    match rowInfo row with
    | none => primary8KUrl rest
    | some (file_type, href) =>
      if hasSub (lc "8-k") file_type then some (SEC_BASE_URL ++ href)
      else primary8KUrl rest

/-- Specification-side reading of the amended claim: the supplemental URLs
are those of the considered rows whose type text contains `ex-99` and that
are not claimed as the primary document (`seen8k` records whether a primary
row already occurred). -/
def ex99Urls : List (List HtmlCell) → Bool → List (List Char)
  | [], _ => []
  | row :: rest, seen8k =>
    match rowInfo row with
    | none => ex99Urls rest seen8k
    | some (file_type, href) =>
      let claims8k := hasSub (lc "8-k") file_type && !seen8k
      let here :=
        if !claims8k && hasSub (lc "ex-99") file_type then
          [SEC_BASE_URL ++ href]
        else []
      here ++ ex99Urls rest (seen8k || hasSub (lc "8-k") file_type)

/-- A concrete index page with a single row whose type cell mentions both
the primary marker and the exhibit marker. -/
def c5rows : List (List HtmlCell) :=
  [[{ text := lc "1", href := none }, { text := lc "doc", href := none },
    { text := lc "link", href := some (lc "/Archives/a.htm") },
    { text := lc "8-K EX-99.1", href := none }]]

/-! ## C8: `parse_atom_latest_filings_feed` (`clients/edgar/utils.py`) and
the `FilingRSSFeedEntry` pydantic model
(`types/dbtables/filing_entry.py`).  A feed entry is modelled by the four
elements the parser reads (`None` both for an absent element and for an
empty one, which BeautifulSoup treats as falsy); the `link` element carries
its optional `href` attribute.  Pydantic's datetime and date parsing and
the timezone-awareness validator are external: the parameters `tsOk` and
`dateOk` decide whether the `updated` text and its date part validate.
Pydantic raises on `cik=None` and `base_url=None` (both fields are declared
`str`), modelled as `Except.error`. -/

/-- The four elements of one Atom `entry` as read by the parser. -/
structure AtomXmlEntry where
  title : Option (List Char)
  link : Option (Option (List Char))
  updated : Option (List Char)
  summary : Option (List Char)

/-- `extract_cik_from_title`: `re.search(r'\(([^()]+)\)', title)` — the
first position with an open parenthesis, at least one character that is no
parenthesis, and a close parenthesis. -/
def extract_cik_from_title : List Char → Option (List Char)
  | [] => none
  | c :: cs =>
    if c = '(' then
      let run := cs.takeWhile (fun x => x ≠ '(' && x ≠ ')')
      let rest := cs.dropWhile (fun x => x ≠ '(' && x ≠ ')')
      match rest with
      | ')' :: _ =>
        if run.isEmpty then extract_cik_from_title cs else some run
      | _ => extract_cik_from_title cs
    else extract_cik_from_title cs

/-- One match of `re.compile(r"Item\s\d+\.\d{2}")`: the literal `Item`
(case-sensitive), one whitespace, digits, a dot, exactly two digits.
Returns the matched text and the remainder. -/
def matchItemToken (l : List Char) : Option (List Char × List Char) :=
  match dropLit (lc "Item") l with
  | none => none
  | some r1 =>
    match r1 with
    | [] => none
    | sp :: r2 =>
      if pyIsSpace sp then
        let ds := r2.takeWhile Char.isDigit
        let r3 := r2.dropWhile Char.isDigit
        if ds.isEmpty then none
        else
          match r3 with
          | '.' :: d1 :: d2 :: r5 =>
            if d1.isDigit && d2.isDigit then
              some (lc "Item" ++ sp :: (ds ++ '.' :: [d1, d2]), r5)
            else none
          | _ => none
      else none

/-- `findall` of the item pattern over the summary text (fuel as in
`replaceAllGo`). -/
def findallItemsGo : Nat → List Char → List (List Char)
  | _, [] => []
  | 0, _ => []
  | fuel + 1, c :: cs =>
    match matchItemToken (c :: cs) with
    | some (m, rest) => m :: findallItemsGo fuel rest
    | none => findallItemsGo fuel cs

/-- All matches of the item pattern, in text order. -/
def findallItems (l : List Char) : List (List Char) :=
  findallItemsGo l.length l

/-- Python string comparison (code-point lexicographic), as `sorted` uses. -/
def lexLe : List Char → List Char → Bool
  | [], _ => true
  | _ :: _, [] => false
  | a :: as, b :: bs => if a = b then lexLe as bs else decide (a < b)

/-- Insertion step of the sort below. -/
def insertSortedLex (x : List Char) : List (List Char) → List (List Char)
  | [] => [x]
  | y :: ys => if lexLe x y then x :: y :: ys else y :: insertSortedLex x ys

/-- `sorted` on deduplicated code strings (insertion sort; the order
produced agrees with Python's on a duplicate-free list). -/
def sortLex (l : List (List Char)) : List (List Char) :=
  l.foldr insertSortedLex []

/-- Python `','.join`. -/
def joinComma : List (List Char) → List Char
  | [] => []
  | [x] => x
  | x :: y :: t => x ++ ',' :: joinComma (y :: t)

/-- The `item_list` computation of the parser:
`",".join(sorted(set(m.replace("Item ", "") for m in findall(summary))))`. -/
def buildItemList (summary : List Char) : List Char :=
  joinComma (sortLex (((findallItems summary).map
    (fun m => replaceAll (lc "Item ") [] m)).dedup))

/-- The fields of `FilingRSSFeedEntry` the parser fills. -/
structure FilingFeedRecord where
  cik : List Char
  base_url : List Char
  item_list : List Char
  ts : List Char
  filing_date : List Char
deriving DecidableEq

/-- `parse_atom_latest_filings_feed`: entries missing one of the four
elements are skipped; for the rest a `FilingRSSFeedEntry` is built, and
pydantic validation failure (no parenthesized identifier in the title, no
`href` on the link, or a timestamp/date the external validators reject)
raises, aborting the whole call. -/
def parse_atom_latest_filings_feed (tsOk dateOk : List Char → Bool) :
    List AtomXmlEntry → Except Unit (List FilingFeedRecord)
  | [] => .ok []
  | e :: es =>
    match e.title, e.link, e.updated, e.summary with
    | some t, some lk, some u, some s =>
      match extract_cik_from_title t, lk with
      | some cik, some href =>
        if tsOk u && dateOk (u.takeWhile (fun c => c ≠ 'T')) then
          match parse_atom_latest_filings_feed tsOk dateOk es with
          | .error () => .error ()
          | .ok r =>
            .ok ({ cik := cik, base_url := href, item_list := buildItemList s,
                   ts := u,
                   filing_date := u.takeWhile (fun c => c ≠ 'T') } :: r)
        else .error ()
      | _, _ => .error ()
    | _, _, _, _ => parse_atom_latest_filings_feed tsOk dateOk es

/-- The record one entry yields, when it yields one: `none` both for an
entry that is skipped (an element missing) and for one that fails
validation. -/
def entryRecord (tsOk dateOk : List Char → Bool) (e : AtomXmlEntry) :
    Option FilingFeedRecord :=
  match e.title, e.link, e.updated, e.summary with
  | some t, some lk, some u, some s =>
    match extract_cik_from_title t, lk with
    | some cik, some href =>
      if tsOk u && dateOk (u.takeWhile (fun c => c ≠ 'T')) then
        some { cik := cik, base_url := href, item_list := buildItemList s,
               ts := u, filing_date := u.takeWhile (fun c => c ≠ 'T') }
      else none
    | _, _ => none
  | _, _, _, _ => none

/-- The entry has all four elements. -/
def entryComplete (e : AtomXmlEntry) : Bool :=
  e.title.isSome && e.link.isSome && e.updated.isSome && e.summary.isSome

/-- A concrete entry whose title carries no parenthesized identifier. -/
def entryNoParens : AtomXmlEntry :=
  { title := some (lc "Acme Corp 8-K"),
    link := some (some (lc "https://www.sec.gov/idx9")),
    updated := some (lc "2024-05-01T10:00:00-04:00"),
    summary := some (lc "Item 2.02 results") }

/-- A concrete entry missing its summary element. -/
def entryNoSummary : AtomXmlEntry :=
  { title := some (lc "Beta Inc (0000000077)"),
    link := some (some (lc "https://www.sec.gov/idx8")),
    updated := some (lc "2024-05-02T09:00:00-04:00"),
    summary := none }

/-- A concrete entry with every required field present and valid. -/
def entryGood : AtomXmlEntry :=
  { title := some (lc "Gamma LLC (0000000088)"),
    link := some (some (lc "https://www.sec.gov/idx7")),
    updated := some (lc "2024-05-03T09:30:00-04:00"),
    summary := some (lc "Item 7.01 and Item 2.02 events") }

/-! ## C3/C9: `clean_and_extract_normalized_sections`
(`clients/edgar/utils.py`).  Steps of the source: (1) `clean_text`, (2)
removal of `<?...?>` headers, (3-4) BeautifulSoup parsing, tag pruning and
text extraction — external, the `soupText` parameter — followed by a second
`clean_text`, (5) case-normalisation of the marker word, (6) the section
regular expression
`(Item\s+\d+\.\d+[^A-Za-z0-9]+.*?) (?=Item\s+\d+\.\d+[^A-Za-z0-9]+|$)`
with `finditer`, and the dictionary build with last-match-wins assignment.
The matcher below implements exactly this expression's backtracking: the
head classes are mutually disjoint so they match greedily without choice;
`[^A-Za-z0-9]+` backtracks from its longest match downwards (`tryRun`);
`.*?` extends lazily one character at a time, never across a newline
(`lazyBody`); the trailing literal space and the lookahead (`Item` head or
end of input, where `$` also accepts a final lone newline) close a match. -/

/-- Greedy `takeWhile1`: one-or-more characters of a class, with the rest.
The classes that follow each `+` in the head of the section pattern cannot
match its first character, so greedy matching here loses no match. -/
def span1 (p : Char → Bool) (l : List Char) : Option (List Char × List Char) :=
  let a := l.takeWhile p
  if a.isEmpty then none else some (a, l.dropWhile p)

/-- The head `Item\s+\d+\.\d+` of the section pattern, case-insensitively:
the consumed text (original casing), the code `\d+\.\d+` and the rest. -/
def itemHeadParse (l : List Char) : Option (List Char × List Char × List Char) :=
  match takeCI (lc "item") l with
  | none => none
  | some (w, r1) =>
    match span1 pyIsSpace r1 with
    | none => none
    | some (sp, r2) =>
      match span1 Char.isDigit r2 with
      | none => none
      | some (d1, r3) =>
        match r3 with
        | '.' :: r4 =>
          match span1 Char.isDigit r4 with
          | none => none
          | some (d2, r5) =>
            some (w ++ sp ++ d1 ++ '.' :: d2, d1 ++ '.' :: d2, r5)
        | _ => none

/-- The lookahead alternative `Item\s+\d+\.\d+[^A-Za-z0-9]+` holds here. -/
def itemHeadAt (l : List Char) : Bool :=
  match itemHeadParse l with
  | none => false
  | some (_, _, r) =>
    match r with
    | [] => false
    | c :: _ => !isAlnumAscii c

/-- The lookahead `(?=Item\s+\d+\.\d+[^A-Za-z0-9]+|$)`: `$` accepts the end
of input or a single trailing newline. -/
def lookaheadOk (l : List Char) : Bool :=
  itemHeadAt l || l.isEmpty || l == ['\n']

/-- The lazy `.*?` followed by the literal space and the lookahead: extend
the body one character at a time (never across a newline, which `.` cannot
match) until the current character is a space whose suffix satisfies the
lookahead.  Returns the body and the text after the consumed space. -/
def lazyBody (acc : List Char) : List Char → Option (List Char × List Char)
  | [] => none
  | c :: cs =>
    if c = ' ' && lookaheadOk cs then some (acc.reverse, cs)
    else if c = '\n' then none
    else lazyBody (c :: acc) cs

/-- Backtracking of the greedy `[^A-Za-z0-9]+`: with `run` its longest
possible match and `t` the text after, try keeping `k` characters, from
`run.length` down to 1, handing the remainder to the lazy tail.  On success
the whole group-1 text `hd ++ run.take k ++ body` and the rest are
returned. -/
def tryRun (hd run t : List Char) : Nat → Option (List Char × List Char)
  | 0 => none
  | k + 1 =>
    match lazyBody [] (run.drop (k + 1) ++ t) with
    | some (body, rest) => some (hd ++ run.take (k + 1) ++ body, rest)
    | none => tryRun hd run t k

/-- A match of the whole section pattern at this position: group 1 and the
text after the match. -/
def matchSectionAt (l : List Char) : Option (List Char × List Char) :=
  match itemHeadParse l with
  | none => none
  | some (hd, _, r) =>
    let run := r.takeWhile (fun c => !isAlnumAscii c)
    let t := r.dropWhile (fun c => !isAlnumAscii c)
    if run.isEmpty then none else tryRun hd run t run.length

/-- `finditer` of the section pattern: leftmost matches, scanning resumes
after each match (fuel as in `replaceAllGo`). -/
def finditerSectionsGo : Nat → List Char → List (List Char)
  | _, [] => []
  | 0, _ => []
  | fuel + 1, c :: cs =>
    match matchSectionAt (c :: cs) with
    | some (g1, rest) => g1 :: finditerSectionsGo fuel rest
    | none => finditerSectionsGo fuel cs

/-- The group-1 texts of all matches of the section pattern, in order. -/
def finditerSections (l : List Char) : List (List Char) :=
  finditerSectionsGo l.length l

/-- `re.match(r'Item\s+(\d+\.\d+)', section_text)`: the code of a stored
section text. -/
def codeOf (l : List Char) : Option (List Char) :=
  (itemHeadParse l).map (fun x => x.2.1)

/-- The `(code, stripped group 1)` pairs the loop feeds the dictionary, in
match order; a match whose stripped text fails the code re-match is dropped
(the `if item_match` guard). -/
def sectionPairs (plain : List Char) : List (List Char × List Char) :=
  (finditerSections plain).filterMap
    (fun g => (codeOf (stripPy g)).map (fun c => (c, stripPy g)))

/-- Python dictionary assignment `d[k] = v`: replace in place when the key
exists, append otherwise. -/
def dictUpsert (d : List (List Char × List Char)) (k v : List Char) :
    List (List Char × List Char) :=
  if d.any (fun p => p.1 == k) then
    d.map (fun p => if p.1 == k then (k, v) else p)
  else d ++ [(k, v)]

/-- The `sections` dictionary built by the loop. -/
def sectionsOf (plain : List Char) : List (List Char × List Char) :=
  (sectionPairs plain).foldl (fun d p => dictUpsert d p.1 p.2) []

/-- Step 5, `re.sub('ITEM', 'Item', text, flags=re.IGNORECASE)` (fuel as in
`replaceAllGo`). -/
def normalizeItemCaseGo : Nat → List Char → List Char
  | _, [] => []
  | 0, l => l
  | fuel + 1, c :: cs =>
    match takeCI (lc "item") (c :: cs) with
    | some (_, rest) => lc "Item" ++ normalizeItemCaseGo fuel rest
    | none => c :: normalizeItemCaseGo fuel cs

/-- Every case variant of the marker word becomes `Item`. -/
def normalizeItemCase (l : List Char) : List Char :=
  normalizeItemCaseGo l.length l

/-- The earliest `?>` reachable without crossing a newline (the lazy `.`
of `<\?.*?\?>` cannot match a newline), with the text after it. -/
def findQClose : List Char → Option (List Char)
  | [] => none
  | '?' :: '>' :: r => some r
  | '\n' :: _ => none
  | _ :: r => findQClose r

/-- Step 2, `re.sub(r'<\?.*?\?>', '', text)` (fuel as in `replaceAllGo`). -/
def removeXmlDeclGo : Nat → List Char → List Char
  | _, [] => []
  | 0, l => l
  | fuel + 1, l =>
    match l with
    | '<' :: '?' :: r =>
      (match findQClose r with
       | some r2 => removeXmlDeclGo fuel r2
       | none => '<' :: removeXmlDeclGo fuel ('?' :: r))
    | c :: cs => c :: removeXmlDeclGo fuel cs
    | [] => []

/-- Removal of `<?...?>` headers. -/
def removeXmlDecl (l : List Char) : List Char := removeXmlDeclGo l.length l

/-- The plain text the section matcher runs on: steps 1 through 5 of the
source, with the BeautifulSoup stage (steps 3-4a) as the external
`soupText` parameter. -/
def extractionPlainText (unesc soupText : List Char → List Char)
    (raw_text : List Char) : List Char :=
  normalizeItemCase (clean_text unesc (soupText (removeXmlDecl
    (clean_text unesc raw_text))))

/-- `clean_and_extract_normalized_sections`: empty (or `None`-like falsy)
input returns the empty map at once; otherwise the dictionary built over
the matches of the section pattern in the normalised plain text. -/
def clean_and_extract_normalized_sections
    (unesc soupText : List Char → List Char) (raw_text : List Char) :
    List (List Char × List Char) :=
  if raw_text.isEmpty then []
  else sectionsOf (extractionPlainText unesc soupText raw_text)

/-- The positions where the bare boundary pattern (the marker word followed
by a code, `Item\s+\d+\.\d+`) matches, by the code matched there: the
claim's notion of a boundary occurrence, with no requirement that a full
section (terminated by a space and another boundary or the end) follows. -/
def boundaryMatches : List Char → List (List Char)
  | [] => []
  | c :: cs =>
    match itemHeadParse (c :: cs) with
    | some (_, code, _) => code :: boundaryMatches cs
    | none => boundaryMatches cs

/-- Python `d.get(k)` on the association-list dictionary. -/
def lookupDict (d : List (List Char × List Char)) (k : List Char) :
    Option (List Char) :=
  (d.find? (fun p => p.1 == k)).map (fun p => p.2)

/-- The value of the last pair carrying key `k`, in feed order. -/
def lastValueFor (ps : List (List Char × List Char)) (k : List Char) :
    Option (List Char) :=
  (ps.reverse.find? (fun p => p.1 == k)).map (fun p => p.2)

/-- The property C3 asserts of one input, relative to the section pattern's
matches: the returned map is non-empty, holds exactly one entry per
distinct code among the matches, and maps each code to the stripped group-1
span of the last match carrying it. -/
def c3Spec (unesc soupText : List Char → List Char) (raw_text : List Char) :
    Prop :=
  (clean_and_extract_normalized_sections unesc soupText raw_text ≠ []) ∧
  ((clean_and_extract_normalized_sections unesc soupText raw_text).map
    Prod.fst).Nodup ∧
  (∀ k, k ∈ (clean_and_extract_normalized_sections unesc soupText
      raw_text).map Prod.fst ↔
    k ∈ (sectionPairs (extractionPlainText unesc soupText raw_text)).map
      Prod.fst) ∧
  (∀ k, lookupDict (clean_and_extract_normalized_sections unesc soupText
      raw_text) k =
    lastValueFor (sectionPairs (extractionPlainText unesc soupText
      raw_text)) k)

/-! ## C6: at-most-once exhibit fetches
(`clients/edgar/exhibit_analyzer.py`, `ExhibitAnalyzer.analyze`, and
`SharedSingletonSet` of `clients/edgar/utils.py`).  The claiming loop of
one `analyze` call runs without suspension points, but the model below is
finer (and so covers strictly more interleavings): concurrent `analyze`
calls are jobs whose claiming iterations and task launches interleave
arbitrarily; only a single iteration — the membership test of
`self.exhibit_set.get_all()` followed by `self.exhibit_set.add(url)` — is
atomic, exactly what the no-await loop body guarantees.  The
`db.record_exists` test may answer either way at any step (the database
grows between `analyze` calls), and `unique_exhibits` is never written by
the source loop, so its membership test is constantly true and is omitted.
A fetch of `u` is "initiated" when `_download_and_parse_exhibit(u, ...)`
is started by the gather. -/

/-- One candidate `(key, url)` pair of a job's claiming loop. -/
structure ExhibitItem where
  key : List Char × List Char × List Char
  url : List Char

/-- Python `url.endswith('.htm')`. -/
def endsWithHtm (u : List Char) : Bool :=
  (dropLit (lc ".htm").reverse u.reverse).isSome

/-- One `analyze` call: the items its loop has not yet visited and the
claimed tasks not yet launched by its gather. -/
structure ExJob where
  pending : List ExhibitItem
  tasks : List (List Char)

/-- The process-wide state: the `SharedSingletonSet` contents, the running
jobs, and the fetches initiated so far. -/
structure ExSys where
  claimed : List (List Char)
  jobs : List ExJob
  fetched : List (List Char)

/-- One scheduler step of the exhibit phase. -/
inductive ExStep : ExSys → ExSys → Prop
  /-- A claiming iteration whose guard passes: the url ends in `.htm`, the
  database check answers false, the url is not in the claimed set; the url
  is added to the set and to the job's task list in the same iteration. -/
  | claimItem (s : ExSys) (i : Nat) (j : ExJob) (it : ExhibitItem)
      (rest : List ExhibitItem)
      (hj : s.jobs.get? i = some j) (hp : j.pending = it :: rest)
      (hhtm : endsWithHtm it.url = true) (hdb : it.url ∉ s.claimed) :
      ExStep s { claimed := s.claimed ++ [it.url],
                 jobs := s.jobs.set i { pending := rest,
                                        tasks := j.tasks ++ [it.url] },
                 fetched := s.fetched }
  /-- A claiming iteration whose guard fails (not `.htm`, the database
  already has the key — the nondeterministic `dbHit` — or the url is
  already claimed): the item is skipped. -/
  | skipItem (s : ExSys) (i : Nat) (j : ExJob) (it : ExhibitItem)
      (rest : List ExhibitItem) (dbHit : Bool)
      (hj : s.jobs.get? i = some j) (hp : j.pending = it :: rest)
      (hguard : endsWithHtm it.url = false ∨ dbHit = true ∨
        it.url ∈ s.claimed) :
      ExStep s { claimed := s.claimed,
                 jobs := s.jobs.set i { pending := rest, tasks := j.tasks },
                 fetched := s.fetched }
  /-- A job whose loop has finished launches one of its claimed tasks. -/
  | launch (s : ExSys) (i : Nat) (j : ExJob) (u : List Char)
      (ts : List (List Char))
      (hj : s.jobs.get? i = some j) (hp : j.pending = [])
      (ht : j.tasks = u :: ts) :
      ExStep s { claimed := s.claimed,
                 jobs := s.jobs.set i { pending := [], tasks := ts },
                 fetched := s.fetched ++ [u] }

/-- Reachability by scheduler steps. -/
inductive ExReach : ExSys → ExSys → Prop
  | refl (s : ExSys) : ExReach s s
  | tail {s t u : ExSys} : ExReach s t → ExStep t u → ExReach s u

/-- A run's initial state: no fetch initiated yet and every job still
before its loop (the claimed set may hold leftovers of earlier runs). -/
def ExInit (s : ExSys) : Prop :=
  s.fetched = [] ∧ ∀ j ∈ s.jobs, j.tasks = []

/-- The counting invariant: for every url, the initiated fetches plus the
still-pending launches never exceed one, and are zero for unclaimed urls. -/
def ExInv (s : ExSys) : Prop :=
  ∀ u : List Char,
    s.fetched.count u + (s.jobs.map (fun j => j.tasks.count u)).sum ≤
      (if u ∈ s.claimed then 1 else 0)

/-- A concrete one-job initial state for the C6 witness. -/
def c6sys : ExSys :=
  { claimed := [],
    jobs := [{ pending := [{ key := (lc "0000000001", lc "2024-05-01", lc "0"),
                             url := lc "https://www.sec.gov/a.htm" }],
               tasks := [] }],
    fetched := [] }

/-! ## C7: `RateLimiter.wait` (`tools/edgar/rate_limiter.py`).  The whole
body of `wait` runs while holding the limiter's asyncio lock, so calls are
fully serialised: the model is a sequential step function over the state
`(last_request_time, request_times)`.  Time is exact rational arithmetic
(`time.time()` and the float constants are idealised); `asyncio.sleep(d)`
wakes exactly at the target time (waking later only widens every gap); a
call's entry time (`now = time.time()` under the lock) is at least the
previous call's completion time, which the `validArrivals` premise
records.  A call's completion time is the timestamp it appends. -/

/-- `SEC_RATE_LIMIT = 0.12` seconds. -/
def SEC_RATE_LIMIT : ℚ := 12 / 100

/-- `SEC_BURST_LIMIT = 8` requests. -/
def SEC_BURST_LIMIT : Nat := 8

/-- `SEC_BURST_WINDOW = 1.0` seconds. -/
def SEC_BURST_WINDOW : ℚ := 1

/-- The limiter's mutable fields. -/
structure RLState where
  last_request_time : ℚ
  request_times : List ℚ

/-- `[t for t in self.request_times if now - t < SEC_BURST_WINDOW]`. -/
def pruneTimes (now : ℚ) (ts : List ℚ) : List ℚ :=
  ts.filter (fun t => decide (now - t < SEC_BURST_WINDOW))

/-- The burst-limit block of `wait`: when the pruned list still meets the
burst limit, sleep until the oldest entry leaves the window (if that is in
the future) and prune again.  Returns the updated `now` and list. -/
def burstPhase (now0 : ℚ) (ts1 : List ℚ) : ℚ × List ℚ :=
  if SEC_BURST_LIMIT ≤ ts1.length then
    match ts1 with
    | [] => (now0, ts1)
    | t0 :: _ =>
      let w := t0 + SEC_BURST_WINDOW - now0
      if 0 < w then (now0 + w, pruneTimes (now0 + w) ts1)
      else (now0, ts1)
  else (now0, ts1)

/-- The rate-limit block of `wait`: if this is not the first request and
less than the minimum spacing has elapsed, sleep the remainder. -/
def spacingPhase (last now1 : ℚ) : ℚ :=
  if 0 < last then
    (if now1 - last < SEC_RATE_LIMIT then
      now1 + (SEC_RATE_LIMIT - (now1 - last))
    else now1)
  else now1

/-- One `wait()` call entered at time `now0`: prune, run the burst block,
run the spacing block, then record the timestamp.  Returns the new state
and the appended timestamp (the call's completion time). -/
def rlWait (s : RLState) (now0 : ℚ) : RLState × ℚ :=
  let ts1 := pruneTimes now0 s.request_times
  let b := burstPhase now0 ts1
  let now2 := spacingPhase s.last_request_time b.1
  (⟨now2, b.2 ++ [now2]⟩, now2)

/-- The singleton's initial state. -/
def initRL : RLState := ⟨0, []⟩

/-- The completion times of a serialised sequence of `wait()` calls with
the given entry times. -/
def runRL : RLState → List ℚ → List ℚ
  | _, [] => []
  | s, a :: as =>
    let r := rlWait s a
    r.2 :: runRL r.1 as

/-- Entry times are positive and never precede the previous call's
completion — what the lock and a monotone clock guarantee. -/
def validArrivals : RLState → List ℚ → Bool
  | _, [] => true
  | s, a :: as =>
    decide (0 < a) && decide (s.last_request_time ≤ a) &&
      validArrivals (rlWait s a).1 as

/-- Consecutive completion times are at least the minimum spacing apart. -/
def rateChain (ts : List ℚ) : Prop :=
  List.Chain' (fun x y => x + SEC_RATE_LIMIT ≤ y) ts

/-- No half-open window one burst-window long holds more than the burst
limit of completion times. -/
def burstWindowBound (ts : List ℚ) : Prop :=
  ∀ a : ℚ,
    (ts.filter (fun t => decide (a < t) && decide (t ≤ a + SEC_BURST_WINDOW))).length
      ≤ SEC_BURST_LIMIT

/-- The property C7 asserts of the recorded timestamps: minimum spacing
between consecutive requests (hence N requests take at least (N-1) times
the spacing), and the sliding-window burst bound. -/
def C7Spec (ts : List ℚ) : Prop :=
  rateChain ts ∧ burstWindowBound ts ∧
  (∀ h : ts ≠ [],
    ts.head h + ((ts.length - 1 : ℕ) : ℚ) * SEC_RATE_LIMIT ≤ ts.getLast h)

/-- The induction invariant tying the recorded history `R` to the limiter
state: the history satisfies both bounds, the state's `last_request_time`
is the last recorded time, recorded times are positive, `request_times` is
a subsequence of the history holding every entry of the last window (a
recorded time missing from it lies a full window before the last request),
and never more than the burst limit of entries. -/
def RLInv (R : List ℚ) (s : RLState) : Prop :=
  rateChain R ∧ burstWindowBound R ∧
  s.last_request_time = R.getLastD 0 ∧
  (∀ t ∈ R, 0 < t) ∧
  s.request_times.Sublist R ∧
  (∀ t ∈ R, t ∉ s.request_times →
    t + SEC_BURST_WINDOW ≤ s.last_request_time) ∧
  s.request_times.length ≤ SEC_BURST_LIMIT

/-! ### Character-class and scanning lemmas for the section matcher -/

theorem pyIsSpace_false_of_isDigit {c : Char} (h : c.isDigit = true) :
    pyIsSpace c = false := by
  cases hpc : pyIsSpace c with
  | false => rfl
  | true =>
    exfalso
    simp only [pyIsSpace, Bool.or_eq_true, decide_eq_true_eq] at hpc
    rcases hpc with ((((h1 | h1) | h1) | h1) | h1) | h1 <;>
      (subst h1; exact absurd h (by decide))

theorem pyIsSpace_false_of_toLower_i {c : Char} (h : c.toLower = 'i') :
    pyIsSpace c = false := by
  cases hpc : pyIsSpace c with
  | false => rfl
  | true =>
    exfalso
    simp only [pyIsSpace, Bool.or_eq_true, decide_eq_true_eq] at hpc
    rcases hpc with ((((h1 | h1) | h1) | h1) | h1) | h1 <;>
      (subst h1; exact absurd h (by decide))

theorem isDigit_false_of_not_alnum {c : Char} (h : isAlnumAscii c = false) :
    c.isDigit = false := by
  simp only [isAlnumAscii, Bool.or_eq_false_iff] at h
  exact h.2

/-- `headNot p x`: the first character of `x`, when there is one, fails `p`. -/
def headNot (p : Char → Bool) (x : List Char) : Prop :=
  ∀ c, x.head? = some c → p c = false

theorem headNot_nil (p : Char → Bool) : headNot p [] := by
  intro c h; simp at h

theorem takeWhile_dropWhile_append {p : Char → Bool} {a x : List Char}
    (ha : ∀ c ∈ a, p c = true) (hx : headNot p x) :
    (a ++ x).takeWhile p = a ∧ (a ++ x).dropWhile p = x := by
  induction a with
  | nil =>
    simp only [List.nil_append]
    cases x with
    | nil => simp
    | cons c cs =>
      have := hx c rfl
      simp [List.takeWhile, List.dropWhile, this]
  | cons c cs ih =>
    have hc : p c = true := ha c (List.mem_cons_self c cs)
    have ih2 := ih (fun d hd => ha d (List.mem_cons_of_mem c hd))
    simp [List.takeWhile, List.dropWhile, hc, ih2.1, ih2.2]

theorem span1_replay {p : Char → Bool} {a x : List Char} (hne : a ≠ [])
    (ha : ∀ c ∈ a, p c = true) (hx : headNot p x) :
    span1 p (a ++ x) = some (a, x) := by
  obtain ⟨h1, h2⟩ := takeWhile_dropWhile_append ha hx
  unfold span1
  rw [h1, h2]
  simp [hne]

theorem span1_facts {p : Char → Bool} {l a r : List Char}
    (h : span1 p l = some (a, r)) :
    a ≠ [] ∧ (∀ c ∈ a, p c = true) ∧ l = a ++ r := by
  unfold span1 at h
  by_cases he : (l.takeWhile p).isEmpty
  · simp [he] at h
  · simp only [he, Bool.false_eq_true, if_false, Option.some.injEq,
      Prod.mk.injEq] at h
    obtain ⟨h1, h2⟩ := h
    subst h1; subst h2
    refine ⟨by simpa [List.isEmpty_iff] using he, ?_, ?_⟩
    · intro c hc; exact List.mem_takeWhile_imp hc
    · exact (List.takeWhile_append_dropWhile p l).symm

theorem takeCI_replay {pat l m r : List Char}
    (h : takeCI pat l = some (m, r)) :
    ∀ x, takeCI pat (m ++ x) = some (m, x) := by
  induction pat generalizing l m with
  | nil =>
    intro x
    simp only [takeCI, Option.some.injEq, Prod.mk.injEq] at h
    rw [← h.1]
    rfl
  | cons p ps ih =>
    intro x
    cases l with
    | nil => simp [takeCI] at h
    | cons c cs =>
      by_cases hc : c.toLower = p.toLower
      · rw [takeCI, if_pos hc, Option.map_eq_some'] at h
        obtain ⟨⟨m', r'⟩, hm, he⟩ := h
        have he' : c :: m' = m ∧ r' = r := by simpa using he
        obtain ⟨he1, he2⟩ := he'
        subst he1; subst he2
        have hrep := ih hm x
        simp only [List.cons_append, takeCI, if_pos hc]
        have h2 : m'.append x = m' ++ x := rfl
        rw [h2, hrep]
        rfl
      · simp [takeCI, hc] at h

theorem takeCI_head {p : Char} {ps l m r : List Char}
    (h : takeCI (p :: ps) l = some (m, r)) :
    ∃ c m', m = c :: m' ∧ c.toLower = p.toLower := by
  cases l with
  | nil => simp [takeCI] at h
  | cons c cs =>
    by_cases hc : c.toLower = p.toLower
    · rw [takeCI, if_pos hc, Option.map_eq_some'] at h
      obtain ⟨⟨m', r'⟩, hm, he⟩ := h
      have he' : c :: m' = m ∧ r' = r := by simpa using he
      exact ⟨c, m', he'.1.symm, hc⟩
    · simp [takeCI, hc] at h

theorem head?_append_of_ne_nil {a : List Char} (m : List Char)
    (ha : a ≠ []) : (a ++ m).head? = a.head? := by
  cases a with
  | nil => exact absurd rfl ha
  | cons c cs => rfl

theorem headRev_eq_getLast (l : List Char) : l.reverse.head? = l.getLast? := by
  induction l with
  | nil => rfl
  | cons c cs ih =>
    cases hcs : cs with
    | nil => rfl
    | cons d ds =>
      rw [List.reverse_cons, head?_append_of_ne_nil [c]
        (by simp [hcs]), ← hcs, ih, hcs]
      rfl

theorem getLastMem {l : List Char} {c : Char} (h : l.getLast? = some c) :
    c ∈ l := by
  rw [← headRev_eq_getLast] at h
  have : c ∈ l.reverse := by
    cases hr : l.reverse with
    | nil => rw [hr] at h; simp at h
    | cons d ds =>
      rw [hr] at h
      simp only [List.head?] at h
      cases h
      exact List.mem_cons_self _ _
  simpa using this

theorem getLast?_append_right {a b : List Char} (hb : b ≠ []) :
    (a ++ b).getLast? = b.getLast? := by
  rw [← headRev_eq_getLast, ← headRev_eq_getLast, List.reverse_append]
  exact head?_append_of_ne_nil _ (by simpa using hb)

theorem dropWhile_append_cases (p : Char → Bool) (a b : List Char) :
    (a ++ b).dropWhile p =
      (if (a.dropWhile p).isEmpty then b.dropWhile p
       else a.dropWhile p ++ b) := by
  induction a with
  | nil => simp
  | cons c cs ih =>
    by_cases hc : p c = true
    · simpa [List.dropWhile, hc] using ih
    · simp [List.dropWhile, hc]

theorem rstripPy_append {x y : List Char} (hx : x ≠ [])
    (h : ∀ c, x.getLast? = some c → pyIsSpace c = false) :
    rstripPy (x ++ y) = x ++ rstripPy y := by
  unfold rstripPy
  rw [List.reverse_append, dropWhile_append_cases]
  have hxr : x.reverse.dropWhile pyIsSpace = x.reverse := by
    cases hr : x.reverse with
    | nil => rfl
    | cons c cs =>
      have hc : x.getLast? = some c := by
        rw [← headRev_eq_getLast, hr]; rfl
      simp [List.dropWhile, h c hc]
  by_cases he : (y.reverse.dropWhile pyIsSpace).isEmpty
  · rw [if_pos he, hxr, List.reverse_reverse]
    have : y.reverse.dropWhile pyIsSpace = [] := List.isEmpty_iff.mp he
    rw [this]
    simp
  · rw [if_neg he, List.reverse_append, List.reverse_reverse]

theorem rstripPy_prefix (l : List Char) : ∃ m, l = rstripPy l ++ m := by
  refine ⟨(l.reverse.takeWhile pyIsSpace).reverse, ?_⟩
  unfold rstripPy
  conv_lhs => rw [← List.reverse_reverse l,
    ← List.takeWhile_append_dropWhile pyIsSpace l.reverse]
  rw [List.reverse_append]

theorem lstripPy_eq_self {l : List Char}
    (h : ∀ c, l.head? = some c → pyIsSpace c = false) : lstripPy l = l := by
  cases l with
  | nil => rfl
  | cons c cs =>
    have := h c rfl
    simp [lstripPy, List.dropWhile, this]

theorem takeWhile_head {p : Char → Bool} {l rest : List Char} {c : Char}
    (h : l.takeWhile p = c :: rest) : p c = true := by
  cases l with
  | nil => simp [List.takeWhile] at h
  | cons a as =>
    by_cases hp : p a = true
    · simp only [List.takeWhile, hp, if_true] at h
      cases h
      exact hp
    · simp [List.takeWhile, hp] at h

theorem itemHeadParse_facts {l hd code r : List Char}
    (h : itemHeadParse l = some (hd, code, r)) :
    ∃ w sp d1 d2,
      hd = w ++ sp ++ d1 ++ '.' :: d2 ∧
      code = d1 ++ '.' :: d2 ∧
      (∀ x, takeCI (lc "item") (w ++ x) = some (w, x)) ∧
      (∃ c w', w = c :: w' ∧ pyIsSpace c = false) ∧
      sp ≠ [] ∧ (∀ c ∈ sp, pyIsSpace c = true) ∧
      d1 ≠ [] ∧ (∀ c ∈ d1, c.isDigit = true) ∧
      d2 ≠ [] ∧ (∀ c ∈ d2, c.isDigit = true) := by
  unfold itemHeadParse at h
  cases h1 : takeCI (lc "item") l with
  | none => rw [h1] at h; simp at h
  | some pr1 =>
    obtain ⟨w, r1⟩ := pr1
    rw [h1] at h
    simp only at h
    cases h2 : span1 pyIsSpace r1 with
    | none => rw [h2] at h; simp at h
    | some pr2 =>
      obtain ⟨sp, r2⟩ := pr2
      rw [h2] at h
      simp only at h
      cases h3 : span1 Char.isDigit r2 with
      | none => rw [h3] at h; simp at h
      | some pr3 =>
        obtain ⟨d1, r3⟩ := pr3
        rw [h3] at h
        simp only at h
        split at h
        next r4 =>
          cases h4 : span1 Char.isDigit r4 with
          | none => rw [h4] at h; simp at h
          | some pr4 =>
            obtain ⟨d2, r5⟩ := pr4
            rw [h4] at h
            simp only [Option.some.injEq, Prod.mk.injEq] at h
            obtain ⟨hhd, hcode, hr⟩ := h
            obtain ⟨hsp1, hsp2, _⟩ := span1_facts h2
            obtain ⟨hd11, hd12, _⟩ := span1_facts h3
            obtain ⟨hd21, hd22, _⟩ := span1_facts h4
            obtain ⟨c, w', hw, hlow⟩ := @takeCI_head 'i' (lc "tem") _ _ _ h1
            refine ⟨w, sp, d1, d2, hhd.symm, hcode.symm,
              takeCI_replay h1, ⟨c, w', hw, ?_⟩,
              hsp1, hsp2, hd11, hd12, hd21, hd22⟩
            exact pyIsSpace_false_of_toLower_i (by simpa using hlow)
        next => simp at h

theorem itemHeadParse_replay {w sp d1 d2 tail : List Char}
    (hw : ∀ x, takeCI (lc "item") (w ++ x) = some (w, x))
    (hsp : sp ≠ []) (hsp2 : ∀ c ∈ sp, pyIsSpace c = true)
    (hd1 : d1 ≠ []) (hd1d : ∀ c ∈ d1, c.isDigit = true)
    (hd2 : d2 ≠ []) (hd2d : ∀ c ∈ d2, c.isDigit = true)
    (htail : headNot Char.isDigit tail) :
    itemHeadParse (w ++ (sp ++ (d1 ++ ('.' :: (d2 ++ tail))))) =
      some (w ++ sp ++ d1 ++ '.' :: d2, d1 ++ '.' :: d2, tail) := by
  unfold itemHeadParse
  rw [hw (sp ++ (d1 ++ ('.' :: (d2 ++ tail))))]
  simp only
  have hspan1 : span1 pyIsSpace (sp ++ (d1 ++ ('.' :: (d2 ++ tail)))) =
      some (sp, d1 ++ ('.' :: (d2 ++ tail))) := by
    apply span1_replay hsp hsp2
    intro c hc
    cases d1 with
    | nil => exact absurd rfl hd1
    | cons a d1' =>
      simp only [List.cons_append, List.head?] at hc
      cases hc
      exact pyIsSpace_false_of_isDigit (hd1d c (List.mem_cons_self c d1'))
  rw [hspan1]
  simp only
  have hspan2 : span1 Char.isDigit (d1 ++ ('.' :: (d2 ++ tail))) =
      some (d1, '.' :: (d2 ++ tail)) := by
    apply span1_replay hd1 hd1d
    intro c hc
    simp only [List.head?] at hc
    cases hc
    decide
  rw [hspan2]
  simp only
  have hspan3 : span1 Char.isDigit (d2 ++ tail) = some (d2, tail) :=
    span1_replay hd2 hd2d htail
  rw [hspan3]

theorem tryRun_shape {hd run t g rest : List Char} :
    ∀ k, tryRun hd run t k = some (g, rest) →
      ∃ k' body, 1 ≤ k' ∧ k' ≤ k ∧ g = hd ++ run.take k' ++ body := by
  intro k
  induction k with
  | zero => intro h; simp [tryRun] at h
  | succ k ih =>
    intro h
    unfold tryRun at h
    cases hlb : lazyBody [] (run.drop (k + 1) ++ t) with
    | some pr =>
      obtain ⟨body, rest'⟩ := pr
      rw [hlb] at h
      simp only [Option.some.injEq, Prod.mk.injEq] at h
      exact ⟨k + 1, body, by omega, Nat.le_refl _, h.1.symm⟩
    | none =>
      rw [hlb] at h
      obtain ⟨k', body, h1, h2, h3⟩ := ih h
      exact ⟨k', body, h1, Nat.le_succ_of_le h2, h3⟩

theorem matchSectionAt_strip_code {l g rest : List Char}
    (h : matchSectionAt l = some (g, rest)) :
    ∃ code, codeOf (stripPy g) = some code := by
  unfold matchSectionAt at h
  cases hip : itemHeadParse l with
  | none => rw [hip] at h; simp at h
  | some trip =>
    obtain ⟨hd, code0, r⟩ := trip
    rw [hip] at h
    simp only at h
    by_cases hre : (r.takeWhile (fun c => !isAlnumAscii c)).isEmpty
    · rw [if_pos hre] at h; simp at h
    · rw [if_neg hre] at h
      obtain ⟨k', body, hk1, _, hg⟩ := tryRun_shape _ h
      obtain ⟨w, sp, d1, d2, hhd, _, hw, ⟨c0, w', hw0, hc0⟩,
        hsp1, hsp2, hd11, hd12, hd21, hd22⟩ := itemHeadParse_facts hip
      -- the kept run characters: non-empty, starting with a non-alnum char
      obtain ⟨ch, runtl, hrunc⟩ :
          ∃ ch runtl, r.takeWhile (fun c => !isAlnumAscii c) = ch :: runtl := by
        cases hx : r.takeWhile (fun c => !isAlnumAscii c) with
        | nil => rw [hx] at hre; simp at hre
        | cons a b => exact ⟨a, b, rfl⟩
      have hch : isAlnumAscii ch = false := by
        have := takeWhile_head hrunc
        simpa using this
      -- tail of the match after the head
      set tl := (r.takeWhile (fun c => !isAlnumAscii c)).take k' ++ body
        with htl
      have htlhead : tl.head? = some ch := by
        rw [htl, hrunc]
        cases k' with
        | zero => omega
        | succ n => rfl
      -- g with the head decomposed
      have hgdec : g = hd ++ tl := by rw [hg, htl, List.append_assoc]
      -- strip: no leading whitespace
      have hghead : ∀ c, g.head? = some c → pyIsSpace c = false := by
        intro c hc
        rw [hgdec, hhd, hw0] at hc
        simp only [List.cons_append, List.head?] at hc
        cases hc
        exact hc0
      have hlstrip : lstripPy g = g := lstripPy_eq_self hghead
      -- strip: the head part ends in a digit
      have hdlast : ∀ c, hd.getLast? = some c → pyIsSpace c = false := by
        intro c hc
        rw [hhd] at hc
        have hrest : ('.' :: d2) ≠ [] := by simp
        rw [getLast?_append_right hrest] at hc
        have h2 : ('.' :: d2).getLast? = d2.getLast? := by
          have : ('.' :: d2) = ['.'] ++ d2 := rfl
          rw [this, getLast?_append_right hd21]
        rw [h2] at hc
        exact pyIsSpace_false_of_isDigit (hd22 c (getLastMem hc))
      have hdne : hd ≠ [] := by
        rw [hhd, hw0]
        simp
      have hrstrip : rstripPy (hd ++ tl) = hd ++ rstripPy tl :=
        rstripPy_append hdne hdlast
      -- the stripped tail still starts (if at all) with the non-alnum char
      have htailnot : headNot Char.isDigit (rstripPy tl) := by
        intro c hc
        obtain ⟨m, hm⟩ := rstripPy_prefix tl
        cases hts : rstripPy tl with
        | nil => rw [hts] at hc; simp at hc
        | cons a b =>
          rw [hts] at hc
          simp only [List.head?] at hc
          cases hc
          have : tl.head? = some c := by
            rw [hm, hts, List.cons_append]
            rfl
          rw [htlhead] at this
          cases this
          exact isDigit_false_of_not_alnum hch
      have hstrip : stripPy g = hd ++ rstripPy tl := by
        unfold stripPy
        rw [hlstrip, hgdec, hrstrip]
      have hassoc : hd ++ rstripPy tl =
          w ++ (sp ++ (d1 ++ ('.' :: (d2 ++ rstripPy tl)))) := by
        rw [hhd]
        simp [List.append_assoc]
      refine ⟨d1 ++ '.' :: d2, ?_⟩
      unfold codeOf
      rw [hstrip, hassoc,
        itemHeadParse_replay hw hsp1 hsp2 hd11 hd12 hd21 hd22 htailnot]
      rfl

/-! ### Python-dictionary lemmas for the section map -/

theorem find?_append_or (p : List Char × List Char → Bool)
    (l1 l2 : List (List Char × List Char)) :
    List.find? p (l1 ++ l2) =
      match List.find? p l1 with
      | some x => some x
      | none => List.find? p l2 := by
  induction l1 with
  | nil => simp
  | cons q l1' ih =>
    by_cases hq : p q = true
    · simp [List.find?, hq]
    · simp only [List.cons_append, List.find?, hq]
      exact ih

theorem find?_map_upsert_ne {d : List (List Char × List Char)}
    {a b k : List Char} (hk : k ≠ a) :
    List.find? (fun p => p.1 == k)
        (d.map (fun p => if p.1 == a then (a, b) else p)) =
      List.find? (fun p => p.1 == k) d := by
  induction d with
  | nil => rfl
  | cons q d' ih =>
    by_cases hqa : (q.1 == a) = true
    · have hqa' : q.1 = a := by simpa using hqa
      have h1 : (((a, b).1 == k)) = false := by
        simp only [beq_eq_false_iff_ne, ne_eq]
        intro hx; exact hk hx.symm
      have h2 : (q.1 == k) = false := by
        rw [hqa']
        simp only [beq_eq_false_iff_ne, ne_eq]
        intro hx; exact hk hx.symm
      simp only [List.map_cons, if_pos hqa, List.find?, h1, h2]
      exact ih
    · simp only [List.map_cons, if_neg hqa, List.find?]
      by_cases hqk : (q.1 == k) = true
      · simp [hqk]
      · simp only [hqk, Bool.false_eq_true, if_false]
        exact ih

theorem find?_map_upsert_self {d : List (List Char × List Char)}
    {a b : List Char} (hany : d.any (fun p => p.1 == a) = true) :
    List.find? (fun p => p.1 == a)
        (d.map (fun p => if p.1 == a then (a, b) else p)) = some (a, b) := by
  induction d with
  | nil => simp at hany
  | cons q d' ih =>
    by_cases hqa : (q.1 == a) = true
    · simp [List.find?, hqa]
    · simp only [List.map_cons, if_neg hqa, List.find?, hqa,
        Bool.false_eq_true, if_false]
      apply ih
      rcases List.any_eq_true.mp hany with ⟨p, hp, hpa⟩
      rcases List.mem_cons.mp hp with h | h
      · subst h; exact absurd hpa hqa
      · exact List.any_eq_true.mpr ⟨p, h, hpa⟩

theorem lookupDict_upsert (d : List (List Char × List Char))
    (a b k : List Char) :
    lookupDict (dictUpsert d a b) k =
      if k = a then some b else lookupDict d k := by
  unfold dictUpsert lookupDict
  by_cases hany : d.any (fun p => p.1 == a) = true
  · rw [if_pos hany]
    by_cases hk : k = a
    · rw [if_pos hk, hk, find?_map_upsert_self hany]
      rfl
    · rw [if_neg hk, find?_map_upsert_ne hk]
  · rw [if_neg hany]
    have hnotin : ∀ p ∈ d, (p.1 == a) = false := by
      intro p hp
      cases h : (p.1 == a)
      · rfl
      · exact absurd (List.any_eq_true.mpr ⟨p, hp, h⟩) hany
    rw [find?_append_or]
    by_cases hk : k = a
    · rw [if_pos hk]
      have hfd : List.find? (fun p => p.1 == k) d = none := by
        rw [List.find?_eq_none]
        intro p hp
        rw [hk]
        simp [hnotin p hp]
      rw [hfd]
      have : (((a, b).1 == k)) = true := by simp [hk]
      simp [List.find?, this]
    · rw [if_neg hk]
      have h1 : (((a, b).1 == k)) = false := by
        simp only [beq_eq_false_iff_ne, ne_eq]
        intro hx; exact hk hx.symm
      cases hfd : List.find? (fun p => p.1 == k) d with
      | none => simp [hfd, List.find?, h1]
      | some x => simp [hfd]

theorem mem_keys_of_any_true {d : List (List Char × List Char)}
    {a : List Char} (hany : d.any (fun p => p.1 == a) = true) :
    a ∈ d.map Prod.fst := by
  rcases List.any_eq_true.mp hany with ⟨p, hp, hpa⟩
  have : p.1 = a := by simpa using hpa
  exact this ▸ List.mem_map_of_mem Prod.fst hp

theorem not_mem_keys_of_any_false {d : List (List Char × List Char)}
    {a : List Char} (hany : ¬ d.any (fun p => p.1 == a) = true) :
    a ∉ d.map Prod.fst := by
  intro hmem
  rcases List.mem_map.mp hmem with ⟨p, hp, hpa⟩
  exact hany (List.any_eq_true.mpr ⟨p, hp, by simp [hpa]⟩)

theorem keys_upsert (d : List (List Char × List Char)) (a b : List Char) :
    (dictUpsert d a b).map Prod.fst =
      if d.any (fun p => p.1 == a) = true then d.map Prod.fst
      else d.map Prod.fst ++ [a] := by
  unfold dictUpsert
  by_cases hany : d.any (fun p => p.1 == a) = true
  · rw [if_pos hany, if_pos hany, List.map_map]
    apply List.map_congr_left
    intro p hp
    by_cases hpa : (p.1 == a) = true
    · have hpa' : p.1 = a := by simpa using hpa
      simp [hpa, Function.comp, hpa']
    · simp [hpa, Function.comp]
  · rw [if_neg hany, if_neg hany]
    simp

theorem nodup_keys_upsert {d : List (List Char × List Char)}
    (a b : List Char) (h : (d.map Prod.fst).Nodup) :
    ((dictUpsert d a b).map Prod.fst).Nodup := by
  rw [keys_upsert]
  by_cases hany : d.any (fun p => p.1 == a) = true
  · rw [if_pos hany]; exact h
  · rw [if_neg hany]
    refine List.Nodup.append h (List.nodup_singleton a) ?_
    intro x hx hxa
    have : x = a := by simpa using hxa
    subst this
    exact not_mem_keys_of_any_false hany hx

theorem fold_lookup (ps : List (List Char × List Char)) :
    ∀ (d : List (List Char × List Char)) k,
      lookupDict (ps.foldl (fun d p => dictUpsert d p.1 p.2) d) k =
        match lastValueFor ps k with
        | some v => some v
        | none => lookupDict d k := by
  induction ps with
  | nil =>
    intro d k
    simp [lastValueFor]
  | cons p ps ih =>
    intro d k
    rw [List.foldl_cons, ih]
    have hlast : lastValueFor (p :: ps) k =
        match lastValueFor ps k with
        | some v => some v
        | none => if p.1 == k then some p.2 else none := by
      unfold lastValueFor
      rw [List.reverse_cons, find?_append_or]
      cases hf : List.find? (fun q => q.1 == k) ps.reverse with
      | some x => simp
      | none =>
        cases hpk : (p.1 == k) <;> simp [List.find?, hpk]
    rw [hlast, lookupDict_upsert]
    cases hl : lastValueFor ps k with
    | some v => rfl
    | none =>
      by_cases hk : k = p.1
      · have : (p.1 == k) = true := by simp [hk]
        simp [hk, this]
      · have : (p.1 == k) = false := by
          simp only [beq_eq_false_iff_ne, ne_eq]
          intro hx; exact hk hx.symm
        simp [hk, this]

theorem fold_keys (ps : List (List Char × List Char)) :
    ∀ (d : List (List Char × List Char)) k,
      k ∈ ((ps.foldl (fun d p => dictUpsert d p.1 p.2) d).map Prod.fst) ↔
        (k ∈ d.map Prod.fst ∨ k ∈ ps.map Prod.fst) := by
  induction ps with
  | nil => intro d k; simp
  | cons p ps ih =>
    intro d k
    rw [List.foldl_cons, ih, keys_upsert]
    by_cases hany : d.any (fun q => q.1 == p.1) = true
    · rw [if_pos hany]
      simp only [List.map_cons, List.mem_cons]
      constructor
      · rintro (h | h)
        · exact Or.inl h
        · exact Or.inr (Or.inr h)
      · rintro (h | h | h)
        · exact Or.inl h
        · exact Or.inl (h ▸ mem_keys_of_any_true hany)
        · exact Or.inr h
    · rw [if_neg hany]
      simp only [List.mem_append, List.mem_singleton, List.map_cons,
        List.mem_cons]
      tauto

theorem fold_nodup (ps : List (List Char × List Char)) :
    ∀ (d : List (List Char × List Char)), (d.map Prod.fst).Nodup →
      ((ps.foldl (fun d p => dictUpsert d p.1 p.2) d).map Prod.fst).Nodup := by
  induction ps with
  | nil => intro d h; exact h
  | cons p ps ih =>
    intro d h
    rw [List.foldl_cons]
    exact ih _ (nodup_keys_upsert p.1 p.2 h)

theorem upsert_length_ge (d : List (List Char × List Char))
    (a b : List Char) : d.length ≤ (dictUpsert d a b).length := by
  unfold dictUpsert
  by_cases hany : d.any (fun p => p.1 == a) = true
  · rw [if_pos hany, List.length_map]
  · rw [if_neg hany, List.length_append]
    omega

theorem fold_length_ge (ps : List (List Char × List Char)) :
    ∀ d : List (List Char × List Char),
      d.length ≤ (ps.foldl (fun d p => dictUpsert d p.1 p.2) d).length := by
  induction ps with
  | nil => intro d; exact Nat.le_refl _
  | cons p ps ih =>
    intro d
    rw [List.foldl_cons]
    exact Nat.le_trans (upsert_length_ge d p.1 p.2) (ih _)

theorem finditerGo_mem {g : List Char} :
    ∀ n l, g ∈ finditerSectionsGo n l →
      ∃ l' rest, matchSectionAt l' = some (g, rest) := by
  intro n
  induction n with
  | zero =>
    intro l h
    cases l <;> simp [finditerSectionsGo] at h
  | succ n ih =>
    intro l h
    cases l with
    | nil => simp [finditerSectionsGo] at h
    | cons c cs =>
      unfold finditerSectionsGo at h
      cases hm : matchSectionAt (c :: cs) with
      | some pr =>
        obtain ⟨g1, rest⟩ := pr
        rw [hm] at h
        rcases List.mem_cons.mp h with h | h
        · exact ⟨c :: cs, rest, by rw [hm, h]⟩
        · exact ih rest h
      | none =>
        rw [hm] at h
        exact ih cs h

theorem sectionPairs_ne_nil {plain : List Char}
    (h : finditerSections plain ≠ []) : sectionPairs plain ≠ [] := by
  unfold sectionPairs
  cases hf : finditerSections plain with
  | nil => exact absurd hf h
  | cons g gs =>
    have hmem : g ∈ finditerSectionsGo plain.length plain := by
      have : g ∈ finditerSections plain := by
        rw [hf]; exact List.mem_cons_self _ _
      exact this
    obtain ⟨l', rest, hm⟩ := finditerGo_mem plain.length plain hmem
    obtain ⟨code, hc⟩ := matchSectionAt_strip_code hm
    simp [List.filterMap_cons, hc]

theorem boundary_nil_finditerGo_nil :
    ∀ n l, boundaryMatches l = [] → finditerSectionsGo n l = [] := by
  intro n
  induction n with
  | zero => intro l _; cases l <;> rfl
  | succ n ih =>
    intro l h
    cases l with
    | nil => rfl
    | cons c cs =>
      unfold boundaryMatches at h
      cases hip : itemHeadParse (c :: cs) with
      | some tr => rw [hip] at h; simp at h
      | none =>
        rw [hip] at h
        unfold finditerSectionsGo
        have hm : matchSectionAt (c :: cs) = none := by
          unfold matchSectionAt
          rw [hip]
        rw [hm]
        exact ih cs h

theorem sectionsOf_empty_of_no_boundary {plain : List Char}
    (h : boundaryMatches plain = []) : sectionsOf plain = [] := by
  unfold sectionsOf sectionPairs finditerSections
  rw [boundary_nil_finditerGo_nil plain.length plain h]
  rfl

/-! ## Theorems for C4, C2, C1 -/

/-- C4: for every stored key set and candidate list, the filter returns
exactly the set difference, without duplicates, and a repeated call with the
same arguments (no intervening insert) returns the same list. -/
theorem c4_filter_out_existing_is_set_difference
    (stored keys : List (List Char)) :
    (∀ k, k ∈ filter_out_existing_primary_keys stored keys ↔
        (k ∈ keys ∧ k ∉ stored)) ∧
    (filter_out_existing_primary_keys stored keys).Nodup ∧
    filter_out_existing_primary_keys stored keys =
      filter_out_existing_primary_keys stored keys := by
  refine ⟨fun k => ?_, ?_, rfl⟩
  · unfold filter_out_existing_primary_keys
    by_cases h : keys = []
    · subst h; simp
    · simp only [if_neg h, List.mem_dedup, List.mem_filter, decide_eq_true_eq]
      tauto
  · unfold filter_out_existing_primary_keys
    by_cases h : keys = []
    · subst h; simp
    · simp only [if_neg h]
      exact List.nodup_dedup _

/-- C2 counterexample: the filing whose single code 9.99 is outside the
allow-list is kept by the filter, while the claim requires every entry with
a code outside the allow-list to be excluded. -/
theorem c2_counterexample_disallowed_code_kept :
    filterFilingsByItems [filing999] = [filing999] ∧
    lc "9.99" ∈ splitComma filing999.item_list ∧
    lc "9.99" ∉ ALLOWED_8K_ITEMS ∧
    filterFilingsByItems [filing202] = [] ∧
    (∀ x ∈ splitComma filing202.item_list, x ∈ ALLOWED_8K_ITEMS) := by
  refine ⟨by decide, by decide, by decide, by decide, by decide⟩

/-- C2 amended: the filter keeps exactly the entries having at least one
classification code outside `ALLOWED_8K_ITEMS`; an entry all of whose codes
are allow-listed is excluded. -/
theorem c2_filter_keeps_iff_some_code_disallowed
    (fs : List Filing8K) (f : Filing8K) :
    f ∈ filterFilingsByItems fs ↔
      (f ∈ fs ∧ ∃ x ∈ splitComma f.item_list, x ∉ ALLOWED_8K_ITEMS) := by
  unfold filterFilingsByItems disallowedItems
  rw [List.mem_filter]
  simp only [decide_eq_true_eq, ne_eq, List.filter_eq_nil_iff, decide_eq_true_eq,
    not_forall]
  tauto

/-- C1: writing a record and then a second record with the same primary key
through `publish_parsed_801.insert` leaves zero rows for that key — the
`DELETE` removes the existing row and the `UPDATE` then matches nothing —
where the claim requires exactly one row holding the second record's
content. -/
theorem c1_code_bug_second_write_deletes_row :
    publish_parsed_801_insert [] row801first = [row801first] ∧
    publish_parsed_801_insert [row801first] row801second = [] ∧
    publish_parsed_801_insert [row801first] row801first = [] := by
  refine ⟨by decide, by decide, by decide⟩

theorem append_ne_nil_isEmpty (href : List Char) :
    (SEC_BASE_URL ++ href).isEmpty = false := rfl

theorem extractFold_spec (rows : List (List HtmlCell))
    (u0 : List Char) (e0 : List (List Char)) :
    rows.foldl extractRowStep (u0, e0) =
      ((if u0.isEmpty then (primary8KUrl rows).getD [] else u0),
       e0 ++ ex99Urls rows (!u0.isEmpty)) := by
  induction rows generalizing u0 e0 with
  | nil =>
    cases u0 <;> simp [primary8KUrl, ex99Urls, List.isEmpty]
  | cons row rest ih =>
    rw [List.foldl_cons]
    cases hri : rowInfo row with
    | none =>
      rw [show extractRowStep (u0, e0) row = (u0, e0) by
        unfold extractRowStep; rw [hri]]
      rw [ih]
      simp [primary8KUrl, ex99Urls, hri]
    | some pr =>
      obtain ⟨ft, href⟩ := pr
      by_cases h8 : hasSub (lc "8-k") ft = true
      · by_cases he : u0.isEmpty = true
        · have hstep : extractRowStep (u0, e0) row = (SEC_BASE_URL ++ href, e0) := by
            unfold extractRowStep; rw [hri]; simp [h8, he]
          rw [hstep, ih, append_ne_nil_isEmpty]
          have hu0 : u0 = [] := List.isEmpty_iff.mp he
          subst hu0
          simp [primary8KUrl, ex99Urls, hri, h8, append_ne_nil_isEmpty]
        · by_cases hx : hasSub (lc "ex-99") ft = true
          · have hstep : extractRowStep (u0, e0) row =
                (u0, e0 ++ [SEC_BASE_URL ++ href]) := by
              unfold extractRowStep; rw [hri]; simp [h8, he, hx]
            rw [hstep, ih]
            simp [primary8KUrl, ex99Urls, hri, h8, he, hx, List.append_assoc]
          · have hstep : extractRowStep (u0, e0) row = (u0, e0) := by
              unfold extractRowStep; rw [hri]; simp [h8, he, hx]
            rw [hstep, ih]
            simp [primary8KUrl, ex99Urls, hri, h8, he, hx]
      · by_cases hx : hasSub (lc "ex-99") ft = true
        · have hstep : extractRowStep (u0, e0) row =
              (u0, e0 ++ [SEC_BASE_URL ++ href]) := by
            unfold extractRowStep; rw [hri]; simp [h8, hx]
          rw [hstep, ih]
          simp [primary8KUrl, ex99Urls, hri, h8, hx, List.append_assoc]
        · have hstep : extractRowStep (u0, e0) row = (u0, e0) := by
            unfold extractRowStep; rw [hri]; simp [h8, hx]
          rw [hstep, ih]
          simp [primary8KUrl, ex99Urls, hri, h8, hx]

/-- C10: an input with no `<DOCUMENT>...</DOCUMENT>` envelope block yields
no parsed documents, so the join of the (empty) body list cleans and strips
to the empty text and no error is raised, for every behaviour of the
external unescape and BeautifulSoup steps that is empty on empty input. -/
theorem c10_no_envelope_gives_empty_text
    (unesc bodyText : List Char → List Char) (doc_string : List Char)
    (henv : hasEnvelope doc_string = false) (hu : unesc [] = []) :
    parse_document_string unesc bodyText doc_string = .ok [] := by
  unfold parse_document_string
  rw [docBlocks_eq_nil_of_no_envelope henv]
  simp only [List.mapM_nil]
  show Except.ok (stripPy (clean_text unesc (joinNL []))) = Except.ok []
  rw [show joinNL [] = [] from rfl, clean_text_nil hu]
  rfl

theorem primary8KUrl_isEmpty_false {rows : List (List HtmlCell)}
    {p : List Char} (h : primary8KUrl rows = some p) : p.isEmpty = false := by
  induction rows with
  | nil => simp [primary8KUrl] at h
  | cons row rest ih =>
    unfold primary8KUrl at h
    cases hri : rowInfo row with
    | none => rw [hri] at h; exact ih h
    | some pr =>
      obtain ⟨ft, href⟩ := pr
      rw [hri] at h
      by_cases h8 : hasSub (lc "8-k") ft = true
      · simp only [h8, if_true, Option.some.injEq] at h
        rw [← h]
        exact append_ne_nil_isEmpty href
      · simp only [h8, Bool.false_eq_true, if_false] at h
        exact ih h

/-- C5 counterexample: on a page whose single row's type cell reads
`8-K EX-99.1` — it contains the exhibit marker — the resolver returns that
row only as the primary document and an empty supplemental list, while the
claim requires the supplemental URLs to include the link of every row whose
type cell contains the exhibit marker. -/
theorem c5_counterexample_exhibit_marker_row_not_supplemental :
    extract_8k_url_from_base_url c5rows =
      .ok (lc "https://www.sec.gov/Archives/a.htm", []) ∧
    (∃ row ∈ c5rows, ∃ ft href, rowInfo row = some (ft, href) ∧
      hasSub (lc "ex-99") ft = true) := by
  constructor
  · rfl
  · refine ⟨c5rows.head (by decide), by decide, ?_⟩
    refine ⟨toLowerList (stripPy (lc "8-K EX-99.1")),
      lc "/Archives/a.htm", by decide, by decide⟩

/-- C5 amended: the resolver errors exactly when no considered row (at
least four cells, a hyperlink in the third) has the primary marker in its
type text; otherwise the primary URL is that of the first such row, and the
supplemental URLs are those of the considered rows whose type text contains
the exhibit marker and that were not claimed as the primary document, in
row order. -/
theorem c5_resolver_primary_first_and_exhibits_in_order
    (rows : List (List HtmlCell)) :
    (extract_8k_url_from_base_url rows = .error () ↔ primary8KUrl rows = none) ∧
    (∀ p es, extract_8k_url_from_base_url rows = .ok (p, es) →
      primary8KUrl rows = some p ∧ es = ex99Urls rows false) := by
  unfold extract_8k_url_from_base_url
  rw [extractFold_spec]
  simp only [List.isEmpty_nil, if_true, List.nil_append, Bool.not_true]
  cases hp : primary8KUrl rows with
  | none => simp
  | some q =>
    have hq := primary8KUrl_isEmpty_false hp
    simp only [Option.getD_some, hq, Bool.false_eq_true, if_false]
    constructor
    · constructor
      · intro h; exact absurd h (by simp)
      · intro h; exact absurd h (by simp)
    · intro p es h
      have h' : q = p ∧ ex99Urls rows false = es := by
        constructor
        · exact congrArg Prod.fst (Except.ok.inj h)
        · exact congrArg Prod.snd (Except.ok.inj h)
      exact ⟨by rw [h'.1], by rw [h'.2]⟩

theorem list_set_map_sum {α : Type} (f : α → Nat) :
    ∀ (l : List α) (i : Nat) (a b : α), l.get? i = some a →
      ((l.set i b).map f).sum + f a = (l.map f).sum + f b := by
  intro l
  induction l with
  | nil => intro i a b h; simp at h
  | cons x xs ih =>
    intro i a b h
    cases i with
    | zero =>
      simp only [List.get?] at h
      cases h
      simp [List.set]
      omega
    | succ n =>
      simp only [List.get?] at h
      have hx := ih n a b h
      simp only [List.set, List.map_cons, List.sum_cons]
      omega

theorem exInv_step {s t : ExSys} (hs : ExInv s) (hst : ExStep s t) :
    ExInv t := by
  cases hst with
  | claimItem i j it rest hj hp hhtm hdb =>
    intro u
    dsimp only
    have hsum := list_set_map_sum (fun j => j.tasks.count u) s.jobs i j
      ⟨rest, j.tasks ++ [it.url]⟩ hj
    dsimp only at hsum
    have hold := hs u
    rw [List.count_append] at hsum
    by_cases hu : u = it.url
    · have h1 : List.count u [it.url] = 1 := by rw [hu]; simp
      have hmem : u ∈ s.claimed ++ [it.url] := by rw [hu]; simp
      have hnot : u ∉ s.claimed := by rw [hu]; exact hdb
      rw [if_pos hmem]
      rw [if_neg hnot] at hold
      omega
    · have h1 : List.count u [it.url] = 0 := by
        rw [List.count_eq_zero]
        simp [hu]
      have hmem : (u ∈ s.claimed ++ [it.url]) ↔ (u ∈ s.claimed) := by
        simp [hu]
      by_cases hc : u ∈ s.claimed
      · rw [if_pos (hmem.mpr hc)]
        rw [if_pos hc] at hold
        omega
      · rw [if_neg (fun hx => hc (hmem.mp hx))]
        rw [if_neg hc] at hold
        omega
  | skipItem i j it rest dbHit hj hp hguard =>
    intro u
    dsimp only
    have hsum := list_set_map_sum (fun j => j.tasks.count u) s.jobs i j
      ⟨rest, j.tasks⟩ hj
    dsimp only at hsum
    have hold := hs u
    omega
  | launch i j u0 ts hj hp ht =>
    intro u
    dsimp only
    have hsum := list_set_map_sum (fun j => j.tasks.count u) s.jobs i j
      ⟨[], ts⟩ hj
    dsimp only at hsum
    have hold := hs u
    rw [ht] at hsum
    rw [List.count_append]
    by_cases hu : u = u0
    · have h1 : List.count u [u0] = 1 := by rw [hu]; simp
      have h2 : List.count u (u0 :: ts) = List.count u ts + 1 := by
        rw [hu]; simp [List.count_cons]
      rw [h2] at hsum
      omega
    · have h1 : List.count u [u0] = 0 := by
        rw [List.count_eq_zero]
        simp [hu]
      have h2 : List.count u (u0 :: ts) = List.count u ts := by
        rw [List.count_cons]
        simp [Ne.symm hu]
      rw [h2] at hsum
      omega

theorem exReach_inv {s t : ExSys} (hs : ExInv s) (h : ExReach s t) :
    ExInv t := by
  induction h with
  | refl => exact hs
  | tail _ hstep ih => exact exInv_step ih hstep

theorem tasks_empty_sum_zero (u : List Char) :
    ∀ js : List ExJob, (∀ j ∈ js, j.tasks = []) →
      (js.map (fun j => j.tasks.count u)).sum = 0 := by
  intro js
  induction js with
  | nil => intro _; rfl
  | cons j rest ih =>
    intro hj
    have h1 : j.tasks = [] := hj j (List.mem_cons_self j rest)
    have h2 : ∀ x ∈ rest, x.tasks = [] :=
      fun x hx => hj x (List.mem_cons_of_mem j hx)
    simp [h1, ih h2]

theorem exInit_inv {s : ExSys} (h : ExInit s) : ExInv s := by
  obtain ⟨hf, hj⟩ := h
  intro u
  rw [hf, tasks_empty_sum_zero u s.jobs hj]
  simp

/-- C8 counterexample: a feed whose single entry has all four elements but
no parenthesized identifier in its title makes the parser raise a
validation error (pydantic rejects `cik=None`) instead of returning a list
with the entry silently omitted. -/
theorem c8_counterexample_missing_cik_raises :
    parse_atom_latest_filings_feed (fun _ => true) (fun _ => true)
        [entryNoParens] = .error () ∧
    extract_cik_from_title (lc "Acme Corp 8-K") = none ∧
    entryComplete entryNoParens = true := by
  refine ⟨rfl, by decide, by decide⟩

/-- C8 amended: entries missing one of the four elements are silently
skipped; but an entry having all four elements whose title lacks a
parenthesized identifier, whose link lacks an `href`, or whose timestamp or
date fails validation makes the call raise instead of returning; when no
such entry occurs, the parser returns one record per complete entry.  This
theorem characterises the call for every input and every behaviour of the
external validators. -/
theorem c8_parse_skips_incomplete_and_raises_on_invalid
    (tsOk dateOk : List Char → Bool) (entries : List AtomXmlEntry) :
    parse_atom_latest_filings_feed tsOk dateOk entries =
      if entries.all
          (fun e => !entryComplete e || (entryRecord tsOk dateOk e).isSome) then
        .ok (entries.filterMap (entryRecord tsOk dateOk))
      else .error () := by
  induction entries with
  | nil => rfl
  | cons e es ih =>
    rw [List.all_cons, List.filterMap_cons]
    obtain ⟨t, lk, u, s⟩ := e
    cases t with
    | none =>
      have hpass : (!entryComplete ⟨none, lk, u, s⟩ ||
          (entryRecord tsOk dateOk ⟨none, lk, u, s⟩).isSome) = true := by
        simp [entryComplete, entryRecord]
      have hrec : entryRecord tsOk dateOk ⟨none, lk, u, s⟩ = none := rfl
      rw [hpass, hrec, Bool.true_and]
      simpa [parse_atom_latest_filings_feed] using ih
    | some tv =>
    cases lk with
    | none =>
      have hpass : (!entryComplete ⟨some tv, none, u, s⟩ ||
          (entryRecord tsOk dateOk ⟨some tv, none, u, s⟩).isSome) = true := by
        simp [entryComplete, entryRecord]
      have hrec : entryRecord tsOk dateOk ⟨some tv, none, u, s⟩ = none := rfl
      rw [hpass, hrec, Bool.true_and]
      simpa [parse_atom_latest_filings_feed] using ih
    | some lkv =>
    cases u with
    | none =>
      have hpass : (!entryComplete ⟨some tv, some lkv, none, s⟩ ||
          (entryRecord tsOk dateOk ⟨some tv, some lkv, none, s⟩).isSome) = true := by
        simp [entryComplete, entryRecord]
      have hrec : entryRecord tsOk dateOk ⟨some tv, some lkv, none, s⟩ = none := rfl
      rw [hpass, hrec, Bool.true_and]
      simpa [parse_atom_latest_filings_feed] using ih
    | some uv =>
    cases s with
    | none =>
      have hpass : (!entryComplete ⟨some tv, some lkv, some uv, none⟩ ||
          (entryRecord tsOk dateOk ⟨some tv, some lkv, some uv, none⟩).isSome)
            = true := by
        simp [entryComplete, entryRecord]
      have hrec : entryRecord tsOk dateOk ⟨some tv, some lkv, some uv, none⟩
          = none := rfl
      rw [hpass, hrec, Bool.true_and]
      simpa [parse_atom_latest_filings_feed] using ih
    | some sv =>
    simp only [parse_atom_latest_filings_feed]
    cases hcik : extract_cik_from_title tv with
    | none =>
      have hpass : (!entryComplete ⟨some tv, some lkv, some uv, some sv⟩ ||
          (entryRecord tsOk dateOk ⟨some tv, some lkv, some uv, some sv⟩).isSome)
            = false := by
        simp [entryComplete, entryRecord, hcik]
      rw [hpass, Bool.false_and]
      simp
    | some cik =>
    cases lkv with
    | none =>
      have hpass : (!entryComplete ⟨some tv, some none, some uv, some sv⟩ ||
          (entryRecord tsOk dateOk ⟨some tv, some none, some uv, some sv⟩).isSome)
            = false := by
        simp [entryComplete, entryRecord, hcik]
      rw [hpass, Bool.false_and]
      simp
    | some href =>
    cases hts : tsOk uv && dateOk (uv.takeWhile (fun c => c ≠ 'T')) with
    | false =>
      have hpass : (!entryComplete ⟨some tv, some (some href), some uv, some sv⟩ ||
          (entryRecord tsOk dateOk
            ⟨some tv, some (some href), some uv, some sv⟩).isSome) = false := by
        simp only [entryComplete, entryRecord, Option.isSome_some, Bool.not_true,
          Bool.false_or]
        rw [hcik]
        simp only [hts, Bool.false_eq_true, if_false, Option.isSome_none]
        decide
      rw [hpass, Bool.false_and]
      simp [hts]
    | true =>
      have hrec : entryRecord tsOk dateOk
          ⟨some tv, some (some href), some uv, some sv⟩ =
            some { cik := cik, base_url := href, item_list := buildItemList sv,
                   ts := uv,
                   filing_date := uv.takeWhile (fun c => c ≠ 'T') } := by
        simp only [entryRecord]
        rw [hcik]
        simp only [hts, if_true]
      have hpass : (!entryComplete ⟨some tv, some (some href), some uv, some sv⟩ ||
          (entryRecord tsOk dateOk
            ⟨some tv, some (some href), some uv, some sv⟩).isSome) = true := by
        rw [hrec]
        simp
      rw [hpass, hrec, Bool.true_and]
      simp only [hts, if_true]
      rw [ih]
      cases hall : es.all
          (fun e => !entryComplete e || (entryRecord tsOk dateOk e).isSome) with
      | false => simp only [hall, Bool.false_eq_true, if_false]
      | true => simp only [hall, if_true]

/-- C8 witness: on a feed holding one entry missing its summary and one
complete valid entry, the parser returns exactly the complete entry's
record. -/
theorem c8_witness :
    ([entryNoSummary, entryGood].all
      (fun e => !entryComplete e ||
        (entryRecord (fun _ => true) (fun _ => true) e).isSome)) = true ∧
    parse_atom_latest_filings_feed (fun _ => true) (fun _ => true)
        [entryNoSummary, entryGood] =
      if [entryNoSummary, entryGood].all
          (fun e => !entryComplete e ||
            (entryRecord (fun _ => true) (fun _ => true) e).isSome) then
        .ok ([entryNoSummary, entryGood].filterMap
          (entryRecord (fun _ => true) (fun _ => true)))
      else .error () :=
  ⟨by decide,
    c8_parse_skips_incomplete_and_raises_on_invalid
      (fun _ => true) (fun _ => true) [entryNoSummary, entryGood]⟩

/-- C10 witness: a concrete input carrying a `<TEXT>` tag but no envelope
block evaluates to the empty result. -/
theorem c10_witness :
    hasEnvelope (lc "report <TEXT> alpha beta") = false ∧
    (id ([] : List Char) = []) ∧
    parse_document_string id id (lc "report <TEXT> alpha beta") = .ok [] :=
  ⟨by decide, rfl,
    c10_no_envelope_gives_empty_text id id (lc "report <TEXT> alpha beta")
      (by decide) rfl⟩

/-- C3 counterexample: in the text `Item 8.01 Other Events` the claim's
boundary pattern — the marker word followed by a code — matches once (code
8.01), yet the extractor returns the empty map: the section regular
expression also demands a space followed by another boundary or the end of
the text, and the normalisation pass strips the trailing whitespace that
could satisfy it, so a final unterminated section never becomes a match. -/
theorem c3_counterexample_boundary_match_without_entry :
    boundaryMatches (extractionPlainText id id (lc "Item 8.01 Other Events")) =
      [lc "8.01"] ∧
    clean_and_extract_normalized_sections id id
      (lc "Item 8.01 Other Events") = [] := by
  constructor
  · decide
  · decide

/-- C3 amended: for every input whose normalised plain text gives the full
section pattern (boundary plus its terminator: a space followed by another
boundary or the end) at least one match, the returned map holds exactly one
entry per distinct code among those matches, and maps each code to the
stripped group-1 span of the last such match in text order
(last-match-wins).  Quantified over every behaviour of the external
unescape and BeautifulSoup steps. -/
theorem c3_sections_last_match_wins
    (unesc soupText : List Char → List Char) (raw_text : List Char)
    (hraw : raw_text ≠ [])
    (hm : finditerSections (extractionPlainText unesc soupText raw_text) ≠ []) :
    c3Spec unesc soupText raw_text := by
  have hne : raw_text.isEmpty = false := by
    simpa [List.isEmpty_iff] using hraw
  unfold c3Spec clean_and_extract_normalized_sections
  simp only [hne, Bool.false_eq_true, if_false]
  refine ⟨?_, ?_, ?_, ?_⟩
  · unfold sectionsOf
    have hps := sectionPairs_ne_nil hm
    intro hnil
    cases hsp : sectionPairs (extractionPlainText unesc soupText raw_text) with
    | nil => exact hps hsp
    | cons q qs =>
      rw [hsp, List.foldl_cons] at hnil
      have h2 := fold_length_ge qs (dictUpsert [] q.1 q.2)
      rw [hnil] at h2
      simp [dictUpsert] at h2
  · unfold sectionsOf
    exact fold_nodup _ [] (by simp)
  · intro k
    unfold sectionsOf
    rw [fold_keys]
    simp
  · intro k
    unfold sectionsOf
    rw [fold_lookup]
    cases lastValueFor
        (sectionPairs (extractionPlainText unesc soupText raw_text)) k with
    | some v => rfl
    | none => rfl

set_option maxRecDepth 40000 in
/-- C3 witness: a text with two sections carrying the code 1.01 and a final
unterminated section; the map holds the second 1.01 span. -/
theorem c3_witness :
    ((lc "Item 1.01 aa Item 1.01 bb Item 9.01 end" ≠ []) ∧
      finditerSections (extractionPlainText id id
        (lc "Item 1.01 aa Item 1.01 bb Item 9.01 end")) ≠ []) ∧
    c3Spec id id (lc "Item 1.01 aa Item 1.01 bb Item 9.01 end") :=
  ⟨⟨by decide, by decide⟩,
    c3_sections_last_match_wins id id
      (lc "Item 1.01 aa Item 1.01 bb Item 9.01 end")
      (by decide) (by decide)⟩

/-- C9: when the boundary pattern has no match in the normalised plain text
— and likewise for the empty (`None`-like falsy) input — the extractor
returns the empty map and raises nothing, for every behaviour of the
external unescape and BeautifulSoup steps. -/
theorem c9_no_boundary_gives_empty_map
    (unesc soupText : List Char → List Char) (raw_text : List Char)
    (h : raw_text = [] ∨
      boundaryMatches (extractionPlainText unesc soupText raw_text) = []) :
    clean_and_extract_normalized_sections unesc soupText raw_text = [] := by
  unfold clean_and_extract_normalized_sections
  rcases h with h | h
  · subst h; rfl
  · rw [sectionsOf_empty_of_no_boundary h]
    split <;> rfl

set_option maxRecDepth 40000 in
/-- C9 witness: a marker-free text maps to the empty dictionary. -/
theorem c9_witness :
    (boundaryMatches (extractionPlainText id id
      (lc "quarterly report, no markers")) = []) ∧
    clean_and_extract_normalized_sections id id
      (lc "quarterly report, no markers") = [] :=
  ⟨by decide,
    c9_no_boundary_gives_empty_map id id (lc "quarterly report, no markers")
      (Or.inr (by decide))⟩

/-- C6: in every state reachable from a run start (no fetch initiated,
every job before its loop, any leftover claimed set), each exhibit URL has
had its download-and-parse initiated at most once — the membership check
and the add to the process-wide claimed set happen in the same atomic
iteration, before any launch of that URL. -/
theorem c6_exhibit_fetch_initiated_at_most_once
    (s0 s : ExSys) (hinit : ExInit s0) (hreach : ExReach s0 s) :
    ∀ u : List Char, s.fetched.count u ≤ 1 := by
  intro u
  have hinv := exReach_inv (exInit_inv hinit) hreach
  have h := hinv u
  by_cases hc : u ∈ s.claimed
  · rw [if_pos hc] at h; omega
  · rw [if_neg hc] at h; omega

/-- C6 witness: the concrete one-job state is a run start, and after one
claiming step and one launch the URL has been fetched exactly once. -/
theorem c6_witness :
    ExInit c6sys ∧
    (∀ u : List Char, c6sys.fetched.count u ≤ 1) :=
  ⟨⟨rfl, by decide⟩,
    c6_exhibit_fetch_initiated_at_most_once c6sys c6sys ⟨rfl, by decide⟩
      (ExReach.refl c6sys)⟩

/-! ### Rate-limiter lemmas (C7) -/

lemma rate_pos : (0 : ℚ) < SEC_RATE_LIMIT := by norm_num [SEC_RATE_LIMIT]

lemma rateChain_pairwise {R : List ℚ} (h : rateChain R) :
    List.Pairwise (fun u v : ℚ => u + SEC_RATE_LIMIT ≤ v) R := by
  haveI : IsTrans ℚ (fun u v : ℚ => u + SEC_RATE_LIMIT ≤ v) := by
    constructor
    intro x y z hxy hyz
    have hq := rate_pos
    have hxy2 : x + SEC_RATE_LIMIT ≤ y := hxy
    have hyz2 : y + SEC_RATE_LIMIT ≤ z := hyz
    show x + SEC_RATE_LIMIT ≤ z
    linarith
  exact List.chain'_iff_pairwise.mp h

lemma rateChain_nodup {R : List ℚ} (h : rateChain R) : R.Nodup := by
  have hp := rateChain_pairwise h
  refine hp.imp ?_
  intro u v huv
  have hq := rate_pos
  exact ne_of_lt (by linarith)

lemma rateChain_total : ∀ (R : List ℚ), rateChain R →
    ∀ hne : R ≠ [],
      R.head hne + ((R.length - 1 : ℕ) : ℚ) * SEC_RATE_LIMIT ≤ R.getLast hne := by
  intro R
  induction R with
  | nil => intro _ hne; exact absurd rfl hne
  | cons x R ih =>
    intro h hne
    cases R with
    | nil => simp
    | cons y R2 =>
      have hc : x + SEC_RATE_LIMIT ≤ y ∧ rateChain (y :: R2) := List.chain'_cons.mp h
      have hne2 : (y :: R2) ≠ [] := by simp
      have hih := ih hc.2 hne2
      have hgl : (x :: y :: R2).getLast hne = (y :: R2).getLast hne2 :=
        List.getLast_cons hne2
      rw [hgl]
      have hh1 : (x :: y :: R2).head hne = x := rfl
      have hh2 : (y :: R2).head hne2 = y := rfl
      rw [hh1]
      rw [hh2] at hih
      have hl1 : ((y :: R2).length - 1 : ℕ) = R2.length := by simp
      have hl2 : ((x :: y :: R2).length - 1 : ℕ) = R2.length + 1 := by simp
      rw [hl1] at hih
      rw [hl2]
      push_cast
      have hq := rate_pos
      linarith [hc.1, hih]

lemma nodup_length_le_of_subset {l1 l2 : List ℚ} (h1 : l1.Nodup) (h2 : l2.Nodup)
    (hsub : ∀ x, x ∈ l1 → x ∈ l2) : l1.length ≤ l2.length := by
  have hc1 : l1.toFinset.card = l1.length := List.toFinset_card_of_nodup h1
  have hc2 : l2.toFinset.card = l2.length := List.toFinset_card_of_nodup h2
  have hss : l1.toFinset ⊆ l2.toFinset := by
    intro x hx
    rw [List.mem_toFinset] at hx ⊢
    exact hsub x hx
  calc l1.length = l1.toFinset.card := hc1.symm
    _ ≤ l2.toFinset.card := Finset.card_le_card hss
    _ = l2.length := hc2

lemma pruneTimes_sublist (now : ℚ) (ts : List ℚ) : (pruneTimes now ts).Sublist ts :=
  List.filter_sublist ts

lemma pruneTimes_mem {now t : ℚ} {ts : List ℚ} (h : t ∈ pruneTimes now ts) :
    t ∈ ts ∧ now - t < SEC_BURST_WINDOW := by
  unfold pruneTimes at h
  rw [List.mem_filter] at h
  exact ⟨h.1, of_decide_eq_true h.2⟩

lemma pruneTimes_not_mem {now t : ℚ} {ts : List ℚ} (ht : t ∈ ts)
    (h : t ∉ pruneTimes now ts) : t + SEC_BURST_WINDOW ≤ now := by
  by_contra hcon
  push_neg at hcon
  refine h ?_
  unfold pruneTimes
  rw [List.mem_filter]
  exact ⟨ht, decide_eq_true (by linarith)⟩

lemma burstPhase_spec (now0 : ℚ) (ts1 : List ℚ)
    (hmem : ∀ t ∈ ts1, now0 - t < SEC_BURST_WINDOW)
    (hlen : ts1.length ≤ SEC_BURST_LIMIT) :
    now0 ≤ (burstPhase now0 ts1).1 ∧
    (burstPhase now0 ts1).2.Sublist ts1 ∧
    (burstPhase now0 ts1).2.length + 1 ≤ SEC_BURST_LIMIT ∧
    (∀ t ∈ ts1, t ∉ (burstPhase now0 ts1).2 →
      t + SEC_BURST_WINDOW ≤ (burstPhase now0 ts1).1) := by
  cases ts1 with
  | nil =>
    have hbp : burstPhase now0 ([] : List ℚ) = (now0, []) := by
      unfold burstPhase
      split
      · rfl
      · rfl
    rw [hbp]
    refine ⟨le_refl _, List.Sublist.refl _, ?_, ?_⟩
    · simp [SEC_BURST_LIMIT]
    · intro t ht hnot
      exact absurd ht (List.not_mem_nil t)
  | cons t0 rest =>
    by_cases h8 : SEC_BURST_LIMIT ≤ (t0 :: rest).length
    · have hw : 0 < t0 + SEC_BURST_WINDOW - now0 := by
        have h0 := hmem t0 (List.mem_cons_self t0 rest)
        linarith
      have hbp : burstPhase now0 (t0 :: rest)
          = (now0 + (t0 + SEC_BURST_WINDOW - now0),
             pruneTimes (now0 + (t0 + SEC_BURST_WINDOW - now0)) (t0 :: rest)) := by
        have hred : burstPhase now0 (t0 :: rest)
            = (if SEC_BURST_LIMIT ≤ (t0 :: rest).length then
                (if 0 < t0 + SEC_BURST_WINDOW - now0 then
                  (now0 + (t0 + SEC_BURST_WINDOW - now0),
                   pruneTimes (now0 + (t0 + SEC_BURST_WINDOW - now0)) (t0 :: rest))
                else (now0, t0 :: rest))
              else (now0, t0 :: rest)) := rfl
        rw [hred, if_pos h8, if_pos hw]
      have hfalse :
          (decide (now0 + (t0 + SEC_BURST_WINDOW - now0) - t0 < SEC_BURST_WINDOW)) = false := by
        apply decide_eq_false
        intro hcon
        have heq : now0 + (t0 + SEC_BURST_WINDOW - now0) - t0 = SEC_BURST_WINDOW := by ring
        rw [heq] at hcon
        exact lt_irrefl _ hcon
      have hdrop : pruneTimes (now0 + (t0 + SEC_BURST_WINDOW - now0)) (t0 :: rest)
          = List.filter
              (fun t => decide (now0 + (t0 + SEC_BURST_WINDOW - now0) - t < SEC_BURST_WINDOW))
              rest := by
        unfold pruneTimes
        simp [List.filter_cons, hfalse]
      rw [hbp]
      dsimp only
      refine ⟨by linarith, ?_, ?_, ?_⟩
      · rw [hdrop]
        exact (List.filter_sublist rest).trans (List.sublist_cons_self t0 rest)
      · rw [hdrop]
        have hle1 : (List.filter
            (fun t => decide (now0 + (t0 + SEC_BURST_WINDOW - now0) - t < SEC_BURST_WINDOW))
            rest).length ≤ rest.length := List.length_filter_le _ rest
        have hle2 : rest.length + 1 ≤ SEC_BURST_LIMIT := by simpa using hlen
        omega
      · intro t ht hnot
        exact pruneTimes_not_mem ht hnot
    · have hbp : burstPhase now0 (t0 :: rest) = (now0, t0 :: rest) := by
        unfold burstPhase
        rw [if_neg h8]
      rw [hbp]
      refine ⟨le_refl _, List.Sublist.refl _, ?_, ?_⟩
      · simp only [SEC_BURST_LIMIT] at h8 ⊢
        simp only [List.length_cons] at h8 ⊢
        omega
      · intro t ht hnot
        exact absurd ht hnot

lemma spacingPhase_spec (last now1 : ℚ) :
    now1 ≤ spacingPhase last now1 ∧
    (0 < last → last + SEC_RATE_LIMIT ≤ spacingPhase last now1) := by
  unfold spacingPhase
  by_cases hl : 0 < last
  · rw [if_pos hl]
    by_cases he : now1 - last < SEC_RATE_LIMIT
    · rw [if_pos he]
      constructor
      · linarith
      · intro _
        linarith
    · rw [if_neg he]
      push_neg at he
      exact ⟨le_refl _, fun _ => by linarith⟩
  · rw [if_neg hl]
    exact ⟨le_refl _, fun h => absurd h hl⟩

lemma rlWait_run_eq (s : RLState) (a : ℚ) :
    rlWait s a =
      (⟨spacingPhase s.last_request_time (burstPhase a (pruneTimes a s.request_times)).1,
        (burstPhase a (pruneTimes a s.request_times)).2 ++
          [spacingPhase s.last_request_time (burstPhase a (pruneTimes a s.request_times)).1]⟩,
       spacingPhase s.last_request_time (burstPhase a (pruneTimes a s.request_times)).1) := rfl

lemma rlWait_step {R : List ℚ} {s : RLState} {a : ℚ}
    (hinv : RLInv R s) (ha0 : 0 < a) (hla : s.last_request_time ≤ a) :
    RLInv (R ++ [(rlWait s a).2]) (rlWait s a).1 := by
  obtain ⟨hch, hwb, hlast, hpos, hsub, hcomp, hlen⟩ := hinv
  rw [rlWait_run_eq]
  dsimp only
  set ts1 := pruneTimes a s.request_times with hts1
  set b := burstPhase a ts1 with hbdef
  set τ := spacingPhase s.last_request_time b.1 with htau
  have hmem1 : ∀ t ∈ ts1, a - t < SEC_BURST_WINDOW := by
    intro t ht
    rw [hts1] at ht
    exact (pruneTimes_mem ht).2
  have hsub1 : ts1.Sublist s.request_times := by
    rw [hts1]
    exact pruneTimes_sublist a s.request_times
  have hlen1 : ts1.length ≤ SEC_BURST_LIMIT := le_trans hsub1.length_le hlen
  have hbspec := burstPhase_spec a ts1 hmem1 hlen1
  rw [← hbdef] at hbspec
  obtain ⟨hb1, hb2, hb3, hb4⟩ := hbspec
  have hsspec := spacingPhase_spec s.last_request_time b.1
  rw [← htau] at hsspec
  obtain ⟨hs1, hs2⟩ := hsspec
  have hτ1 : a ≤ τ := le_trans hb1 hs1
  have hτpos : 0 < τ := lt_of_lt_of_le ha0 hτ1
  have hgap : ∀ t ∈ R, t ∉ b.2 → t + SEC_BURST_WINDOW ≤ τ := by
    intro t htR hnot
    by_cases h1 : t ∈ ts1
    · exact le_trans (hb4 t h1 hnot) hs1
    · by_cases h2 : t ∈ s.request_times
      · rw [hts1] at h1
        have h3 := pruneTimes_not_mem h2 h1
        linarith
      · have h3 := hcomp t htR h2
        linarith
  have hnd : R.Nodup := rateChain_nodup hch
  have hndb : b.2.Nodup := List.Sublist.nodup ((hb2.trans hsub1).trans hsub) hnd
  refine ⟨?_, ?_, ?_, ?_, ?_, ?_, ?_⟩
  · refine List.Chain'.append hch (List.chain'_singleton τ) ?_
    intro x hx y hy
    have hy2 : τ = y := by simpa using hy
    subst hy2
    cases R with
    | nil => simp at hx
    | cons r R2 =>
      have hne : (r :: R2) ≠ [] := by simp
      have hgl : (r :: R2).getLast? = some ((r :: R2).getLast hne) :=
        List.getLast?_eq_getLast (r :: R2) hne
      rw [hgl] at hx
      have hx2 : (r :: R2).getLast hne = x := by simpa using hx
      have hxm : x ∈ (r :: R2) := by
        rw [← hx2]
        exact List.getLast_mem hne
      have hxpos : 0 < x := hpos x hxm
      have hlx : s.last_request_time = x := by
        rw [hlast, List.getLastD_eq_getLast?, List.getLast?_eq_getLast (r :: R2) hne]
        exact hx2
      have hres := hs2 (by rw [hlx]; exact hxpos)
      rw [hlx] at hres
      exact hres
  · intro w
    rw [List.filter_append, List.length_append]
    cases hpt : (decide (w < τ) && decide (τ ≤ w + SEC_BURST_WINDOW)) with
    | false =>
      have hfτ : List.filter
          (fun t => decide (w < t) && decide (t ≤ w + SEC_BURST_WINDOW)) [τ] = [] := by
        simp [List.filter_cons, hpt]
      rw [hfτ]
      simp only [List.length_nil]
      have h0 := hwb w
      omega
    | true =>
      have hfτ : List.filter
          (fun t => decide (w < t) && decide (t ≤ w + SEC_BURST_WINDOW)) [τ] = [τ] := by
        simp [List.filter_cons, hpt]
      rw [hfτ]
      rw [Bool.and_eq_true, decide_eq_true_eq, decide_eq_true_eq] at hpt
      have hsubf : ∀ x,
          x ∈ List.filter (fun t => decide (w < t) && decide (t ≤ w + SEC_BURST_WINDOW)) R →
          x ∈ b.2 := by
        intro x hxf
        rw [List.mem_filter] at hxf
        have hx12 : (decide (w < x) && decide (x ≤ w + SEC_BURST_WINDOW)) = true := hxf.2
        rw [Bool.and_eq_true, decide_eq_true_eq, decide_eq_true_eq] at hx12
        by_contra hnot
        have hg := hgap x hxf.1 hnot
        linarith [hpt.1, hpt.2, hx12.1]
      have hndf : (List.filter
          (fun t => decide (w < t) && decide (t ≤ w + SEC_BURST_WINDOW)) R).Nodup :=
        List.Nodup.filter _ hnd
      have hflen := nodup_length_le_of_subset hndf hndb hsubf
      simp only [List.length_singleton]
      omega
  · show τ = (R ++ [τ]).getLastD 0
    rw [List.getLastD_concat]
  · intro t ht
    rcases List.mem_append.mp ht with h1 | h1
    · exact hpos t h1
    · have h2 : t = τ := by simpa using h1
      rw [h2]
      exact hτpos
  · show (b.2 ++ [τ]).Sublist (R ++ [τ])
    exact List.Sublist.append ((hb2.trans hsub1).trans hsub) (List.Sublist.refl [τ])
  · intro t ht hnot
    show t + SEC_BURST_WINDOW ≤ τ
    rcases List.mem_append.mp ht with h1 | h1
    · refine hgap t h1 ?_
      intro hc
      exact hnot (List.mem_append.mpr (Or.inl hc))
    · exfalso
      have h2 : t = τ := by simpa using h1
      refine hnot (List.mem_append.mpr (Or.inr ?_))
      rw [h2]
      exact List.mem_singleton_self τ
  · show (b.2 ++ [τ]).length ≤ SEC_BURST_LIMIT
    rw [List.length_append]
    simp only [List.length_singleton]
    omega

lemma runRL_cons (s : RLState) (a : ℚ) (as : List ℚ) :
    runRL s (a :: as) = (rlWait s a).2 :: runRL (rlWait s a).1 as := rfl

lemma validArrivals_cons (s : RLState) (a : ℚ) (as : List ℚ) :
    validArrivals s (a :: as) =
      (decide (0 < a) && decide (s.last_request_time ≤ a) &&
        validArrivals (rlWait s a).1 as) := rfl

lemma runRL_inv : ∀ (as : List ℚ) (R : List ℚ) (s : RLState),
    RLInv R s → validArrivals s as = true →
    ∃ s2, RLInv (R ++ runRL s as) s2 := by
  intro as
  induction as with
  | nil =>
    intro R s h _
    refine ⟨s, ?_⟩
    have h0 : runRL s [] = [] := rfl
    rw [h0, List.append_nil]
    exact h
  | cons a as ih =>
    intro R s hinv hv
    rw [validArrivals_cons, Bool.and_eq_true, Bool.and_eq_true] at hv
    obtain ⟨⟨ha0, hla⟩, hrest⟩ := hv
    have hstep := rlWait_step hinv (of_decide_eq_true ha0) (of_decide_eq_true hla)
    obtain ⟨s2, h2⟩ := ih (R ++ [(rlWait s a).2]) (rlWait s a).1 hstep hrest
    refine ⟨s2, ?_⟩
    rw [runRL_cons]
    have hassoc : R ++ (rlWait s a).2 :: runRL (rlWait s a).1 as
        = (R ++ [(rlWait s a).2]) ++ runRL (rlWait s a).1 as := by
      simp
    rw [hassoc]
    exact h2

/-- C7: under the idealised timing model (the asyncio lock serialises the
calls, sleeps wake exactly on time, the clock is monotone — so each call
enters at a positive time no earlier than the previous call's completion,
which is the `validArrivals` premise), the completion timestamps that a
sequence of `RateLimiter.wait` calls records keep consecutive requests at
least `SEC_RATE_LIMIT` apart — hence N requests span at least (N-1) times
the minimum spacing, the final conjunct of `C7Spec` — and no half-open
window of length `SEC_BURST_WINDOW` ever holds more than
`SEC_BURST_LIMIT` of them. -/
theorem c7_rate_limiter_spacing_and_burst (as : List ℚ)
    (hv : validArrivals initRL as = true) :
    C7Spec (runRL initRL as) := by
  have hinit : RLInv [] initRL := by
    refine ⟨List.chain'_nil, ?_, rfl, ?_, ?_, ?_, ?_⟩
    · intro w
      simp [SEC_BURST_LIMIT]
    · intro t ht
      exact absurd ht (List.not_mem_nil t)
    · exact List.nil_sublist []
    · intro t ht
      exact absurd ht (List.not_mem_nil t)
    · simp [initRL, SEC_BURST_LIMIT]
  obtain ⟨s2, h2⟩ := runRL_inv as [] initRL hinit hv
  rw [List.nil_append] at h2
  obtain ⟨hc1, hc2, _, _, _, _, _⟩ := h2
  exact ⟨hc1, hc2, rateChain_total _ hc1⟩

/-- C7 witness: the two-call schedule entering at times 1 and 2 is a valid
arrival sequence from the initial state, and the recorded timestamps meet
the spacing and burst bounds. -/
theorem c7_witness :
    validArrivals initRL [1, 2] = true ∧ C7Spec (runRL initRL [1, 2]) :=
  ⟨by decide, c7_rate_limiter_spacing_and_burst [1, 2] (by decide)⟩

end AlphaPulse
